import Mathlib

set_option maxHeartbeats 1000000

/-!
Verification development for the Link Loop puzzle frontend.

The definitions below are a shallow embedding of the two algorithmic cores of
the repository:

* `src/link_loop_frontend/src/utils/gameUtils.js` — the grid / Hamiltonian
  path generator (`buildRandomHamiltonianPath`, `generateGrid`), the pure
  validator (`validatePath`), the digit-progression helper
  (`nextRequiredDigitFromPath`) and the seeded PRNG (`mulberry32`,
  `createRng`).
* the game-state hook (`useGameState`) — the interaction engine:
  `startPathAt`, `extendPathTo`, `endPath`, `undo`, `reset`, `resetAll`,
  `startGame`, `restartGame`, `cancelCurrentRunIfIncomplete`, `onPointerUp`.

Modelling conventions:

* JS numbers holding cell coordinates are embedded as `Int` (probing a
  neighbour may produce `-1` before the bounds check, exactly as in the JS).
* The seeded PRNG `mulberry32` returns `k / 2^32` for a 32-bit integer `k`;
  every use in the path builder is of the form `Math.floor(rng() * m)` (exact
  float arithmetic, equal to `k * m / 2^32` in integers), `rng() < 0.5`
  (exact, `k < 2^31`) or `rng() < 0.15` (the float threshold `double(0.15)`
  lies strictly between `644245094/2^32` and `644245095/2^32`, so the test is
  exactly `20 * k < 3 * 2^32`).  We therefore embed an RNG as its stream of
  32-bit outputs `g : Nat → Nat` together with a running index; the concrete
  `mulberry32` stream is `mulberryStream`.  Theorems about the generator are
  proved for every stream, which covers every seed.
* The single inexact-float computation, the digit-placement jitter
  `Math.floor((rng() * 2 - 1) * jitterMax * scale)` in `generateGrid`
  (scale is `0.4` for the first digit, `1.0` otherwise — `0.4` has no exact
  double representation), is abstracted as an integer oracle `jit : Nat → Int`
  giving the value of that expression for each digit index; the theorems hold
  for every oracle, hence for the actual float values.
* JS array reads that can yield `undefined` are embedded with `Option` /
  `getD` defaults.  The one place where the code actually dereferences a
  possibly-`undefined` value (`isAdjacent(last, …)` inside `extendPathTo`) is
  embedded with an explicit `Option` result (`none` = TypeError).
-/

/-- Cells of the grid: a `{row, col}` pair as used throughout `gameUtils.js`,
with integer coordinates (a probed neighbour may be at row `-1`). -/
structure Cell where
  row : Int
  col : Int
deriving DecidableEq, Repr

/-- A grid is a row-major matrix of optional digits (`null` ↦ `none`),
the shape produced by `generateGrid`. -/
abbrev Grid := List (List (Option Nat))

/-- Reading `grid[row][col]`; out-of-range reads (which yield `undefined` or
throw in JS, but are only ever reached here on in-bounds cells or compared
against `null`) are totalised to `none`. -/
def gridVal (grid : Grid) (c : Cell) : Option Nat :=
  if 0 ≤ c.row ∧ 0 ≤ c.col then (grid.getD c.row.toNat []).getD c.col.toNat none
  else none

/-- Writing `grid[row][col] = d` (used by `generateGrid`; the written cells
are always in bounds). -/
def gridSet (grid : Grid) (c : Cell) (d : Nat) : Grid :=
  if 0 ≤ c.row ∧ 0 ≤ c.col then
    grid.set c.row.toNat ((grid.getD c.row.toNat []).set c.col.toNat (some d))
  else grid

/-- Embedding of `isAdjacent` from gameUtils.js: Manhattan distance exactly 1. -/
def isAdjacent (a b : Cell) : Bool :=
  (a.row - b.row).natAbs + (a.col - b.col).natAbs == 1

/-- List of consecutive-pair adjacency along a path (the loop of check (3) of
`validatePath`). -/
def pairwiseAdjacentB : List Cell → Bool
  | [] => true
  | [_] => true
  | a :: b :: rest => isAdjacent a b && pairwiseAdjacentB (b :: rest)

/-- Digits collected by `validatePath`'s `if (grid[r][c])` scan: the loop runs
`r, c` over `0..size-1` and keeps truthy values, i.e. nonzero digits. -/
def truthyDigits (grid : Grid) : List Nat :=
  (List.range grid.length).flatMap fun r =>
    (List.range grid.length).filterMap fun c =>
      match gridVal grid ⟨r, c⟩ with
      | some v => if v = 0 then none else some v
      | none => none

/-- `Math.max(...digitsInGrid, 0)` of `validatePath`. -/
def maxDigitOf (grid : Grid) : Nat := (truthyDigits grid).foldr max 0

/-- The `positions` dictionary of `validatePath`: `positions[v]` is the index
of the **last** path cell whose grid value is `v` (the `forEach` overwrites
earlier entries). -/
def posOf (grid : Grid) (path : List Cell) (v : Nat) : Option Nat :=
  ((path.enum.filter fun ic => gridVal grid ic.2 == some v).getLast?).map Prod.fst

/-- The ascending-digits loop of `validatePath` (`for d = 1; d < maxDigit`),
returning the first failure reason; `fuelD` counts the remaining iterations
(`maxDigit - d`), so the call in `validatePath` uses `fuelD = maxDigit - 1`,
`d = 1`. -/
def checkDigits (grid : Grid) (path : List Cell) : Nat → Nat → Option String
  | 0, _ => none
  | fd + 1, d =>
    match posOf grid path d, posOf grid path (d + 1) with
    | some i, some j =>
        if j < i then some "Digits are not in ascending order along the path"
        else checkDigits grid path fd (d + 1)
    | _, _ => some "Missing numbered cells in path"

/-- Validation results `{ok, reason}`. -/
structure VResult where
  ok : Bool
  reason : String
deriving DecidableEq, Repr

/-- Embedding of `validatePath(grid, path)` from gameUtils.js.  The JS dedups
cells through the string key `"row,col"`, which is injective on integer
coordinates, so the uniqueness test is `path.dedup.length = path.length`. -/
def validatePath (grid : Grid) (path : List Cell) : VResult :=
  let size := grid.length
  if path.length ≠ size * size then ⟨false, "Path must visit every cell once"⟩
  else if path.dedup.length ≠ path.length then
    ⟨false, "Path visits a cell more than once"⟩
  else if ¬ pairwiseAdjacentB path then ⟨false, "Non-adjacent cells in path"⟩
  else
    let maxD := maxDigitOf grid
    match checkDigits grid path (maxD - 1) 1 with
    | some r => ⟨false, r⟩
    | none =>
      let lastVal := match path.getLast? with
        | some c => gridVal grid c
        | none => none
      if lastVal ≠ some maxD then ⟨false, "Path must end on " ++ toString maxD⟩
      else ⟨true, "Valid path"⟩

/-- The scanning loop of `nextRequiredDigitFromPath`: walks the path keeping
the largest digit seen so far along an unbroken ascending run from 1; a digit
jumping past `maxSeen + 1` breaks out of the loop. -/
def nextLoop (grid : Grid) : Nat → List Cell → Nat
  | maxSeen, [] => maxSeen
  | maxSeen, p :: rest =>
    match gridVal grid p with
    | some v =>
        if v = maxSeen + 1 then nextLoop grid v rest
        else if maxSeen + 1 < v then maxSeen
        else nextLoop grid maxSeen rest
    | none => nextLoop grid maxSeen rest

/-- Digits found by the `typeof grid[r][c] === 'number'` scan of
`nextRequiredDigitFromPath` (unlike `validatePath`'s scan this keeps 0). -/
def numericDigits (grid : Grid) : List Nat :=
  (List.range grid.length).flatMap fun r =>
    (List.range grid.length).filterMap fun c => gridVal grid ⟨r, c⟩

/-- Embedding of `nextRequiredDigitFromPath(grid, path)`. -/
def nextRequiredDigitFromPath (grid : Grid) (path : List Cell) : Nat :=
  min (nextLoop grid 0 path + 1) (max 1 ((numericDigits grid).foldr max 0))

/-- Truncation to 32 bits (`>>> 0` / `ToUint32` in JS). -/
def u32 (x : Nat) : Nat := x % 4294967296

/-- The exact value of `Math.floor(rng() * m)` when `rng()` returned the
32-bit value `k` divided by `2^32` (exact in doubles for the small `m` used
here). -/
def floorMul (k m : Nat) : Nat := u32 k * m / 4294967296

/-- One step of the `mulberry32` PRNG: from the closed-over accumulator `a`
produce the 32-bit output and the updated accumulator.  `Math.imul` is a
32-bit product, the xors/ors/shifts act on the 32-bit pattern, the JS `+`
on the intermediate values is exact and subsequently truncated by `^`. -/
def mbNext (a : Nat) : Nat × Nat :=
  let a' := a + 0x6D2B79F5
  let t0 := u32 a'
  let t1 := u32 ((t0 ^^^ (t0 >>> 15)) * (t0 ||| 1))
  let t2 := t1 ^^^ u32 (t1 + u32 ((t1 ^^^ (t1 >>> 7)) * (t1 ||| 61)))
  (u32 (t2 ^^^ (t2 >>> 14)), a')

/-- The stream of 32-bit outputs of `mulberry32(a)`: `mulberryStream a i` is
the value returned (times `2^32`) by the `i`-th call. -/
def mulberryStream (a : Nat) : Nat → Nat
  | 0 => (mbNext a).1
  | i + 1 => mulberryStream (mbNext a).2 i

/-- Embedding of `createRng(seed)` at the level of output streams: a finite
numeric seed selects the deterministic `mulberry32(seed >>> 0)` stream; an
absent seed falls back to the high-entropy source (`crypto` /
`Math.random`), modelled as an arbitrary stream. -/
def createRng (seed : Option Nat) (crypto : Nat → Nat) : Nat → Nat :=
  match seed with
  | some s => mulberryStream (u32 s)
  | none => crypto

/-- The four cardinal directions of `buildRandomHamiltonianPath`, with their
names (used by the orientation-bias grouping). -/
structure Dir where
  name : Char
  dr : Int
  dc : Int
deriving DecidableEq, Repr

/-- `DIRS` from `buildRandomHamiltonianPath`. -/
def DIRS : List Dir := [⟨'U', -1, 0⟩, ⟨'D', 1, 0⟩, ⟨'L', 0, -1⟩, ⟨'R', 0, 1⟩]

/-- The `inBounds` closure of `buildRandomHamiltonianPath`. -/
def inBoundsB (size : Nat) (r c : Int) : Bool :=
  0 ≤ r && r < (size : Int) && 0 ≤ c && c < (size : Int)

/-- Membership of a cell in the bounds of an `size × size` grid, as a `Prop`. -/
def cellInBounds (size : Nat) (x : Cell) : Prop :=
  0 ≤ x.row ∧ x.row < (size : Int) ∧ 0 ≤ x.col ∧ x.col < (size : Int)

instance (size : Nat) (x : Cell) : Decidable (cellInBounds size x) := by
  unfold cellInBounds; infer_instance

/-- `unvisitedDegree(r, c)`: `none` encodes `Number.POSITIVE_INFINITY`
(out of bounds or already visited), otherwise the count of unvisited
in-bounds neighbours.  The boolean `visited` matrix is represented by the
list of cells currently marked true. -/
def unvisitedDegree (size : Nat) (visited : List Cell) (r c : Int) : Option Nat :=
  if ¬ inBoundsB size r c ∨ visited.contains ⟨r, c⟩ then none
  else some ((DIRS.filter fun d =>
    inBoundsB size (r + d.dr) (c + d.dc) && ! visited.contains ⟨r + d.dr, c + d.dc⟩).length)

/-- Sort key realising the `degA - degB` comparator: finite degrees are at
most 4, so `5` faithfully represents infinity (`Infinity - Infinity` is `NaN`
which the sort treats as equal, matching equal keys). -/
def degKey (size : Nat) (visited : List Cell) (r c : Int) : Nat :=
  match unvisitedDegree size visited r c with
  | none => 5
  | some n => n

/-- Stable insertion used by `stableSortBy`: an element is placed before the
first strictly greater key, after equal keys to its left. -/
def insSorted {α : Type} (key : α → Nat) (x : α) : List α → List α
  | [] => [x]
  | y :: ys => if key x ≤ key y then x :: y :: ys else y :: insSorted key x ys

/-- Stable ascending sort by a numeric key, modelling the (ES2019-stable)
`Array.prototype.sort` with a `key a - key b` comparator. -/
def stableSortBy {α : Type} (key : α → Nat) : List α → List α
  | [] => []
  | x :: xs => insSorted key x (stableSortBy key xs)

/-- Swap of the entries at positions `i` and `j`
(`[arr[i], arr[j]] = [arr[j], arr[i]]`). -/
def swapIdx {α : Type} (l : List α) (i j : Nat) : List α :=
  match l[i]?, l[j]? with
  | some a, some b => (l.set i b).set j a
  | _, _ => l

/-- The Fisher-Yates loop `for (i = len-1; i > 0; i--) swap(i, floor(rng()*(i+1)))`,
threading the RNG index; the `Nat` argument is the current loop counter `i`. -/
def fyLoop {α : Type} (g : Nat → Nat) : List α → Nat → Nat → List α × Nat
  | l, k, 0 => (l, k)
  | l, k, i + 1 =>
    let j := floorMul (g k) (i + 2)
    fyLoop g (swapIdx l (i + 1) j) (k + 1) i

/-- The three outcomes of `orientationBias`: prefer horizontal, prefer
vertical, or neutral (`null`). -/
inductive Bias where
  | H
  | V
  | N
deriving DecidableEq, Repr

/-- `orientationBias(depth)`: draws `k ∈ 3..5`, and on `depth % k == 0` flips
a fair coin (`rng() < 0.5` is exactly `output < 2^31`). -/
def orientationBias (g : Nat → Nat) (depth k : Nat) : Bias × Nat :=
  let kk := 3 + floorMul (g k) 3
  if depth % kk = 0 then
    (if u32 (g (k + 1)) < 2147483648 then Bias.H else Bias.V, k + 2)
  else (Bias.N, k + 1)

/-- Grouping tests used by the soft bias re-sorts. -/
def isHoriz (d : Dir) : Bool := d.name == 'L' || d.name == 'R'

/-- Vertical grouping test. -/
def isVert (d : Dir) : Bool := d.name == 'U' || d.name == 'D'

/-- `shuffledNeighbors(r, c, depth)`: bias draw, Fisher-Yates shuffle of the
four directions, optional bias grouping re-sort, then the Warnsdorff
stable sort by unvisited degree. -/
def shuffledNeighbors (g : Nat → Nat) (size : Nat) (visited : List Cell)
    (r c : Int) (depth k : Nat) : List Dir × Nat :=
  let bk := orientationBias g depth k
  let ak := fyLoop g DIRS bk.2 (DIRS.length - 1)
  let arr2 := match bk.1 with
    | Bias.H => stableSortBy (fun d => if isHoriz d then 0 else 1) ak.1
    | Bias.V => stableSortBy (fun d => if isVert d then 0 else 1) ak.1
    | Bias.N => ak.1
  (stableSortBy (fun d => degKey size visited (r + d.dr) (c + d.dc)) arr2, ak.2)

/-- The `rng() < 0.15` pair swap of `dfs` (`rng() < 0.15` is exactly
`20 * output < 3 * 2^32`, see the header comment). -/
def maybeSwap (g : Nat → Nat) (l : List Dir) (k : Nat) : List Dir × Nat :=
  if 20 * u32 (g k) < 3 * 4294967296 then
    let i := floorMul (g (k + 1)) l.length
    let j := floorMul (g (k + 2)) l.length
    (swapIdx l i j, k + 3)
  else (l, k + 1)

/-- Search state of the randomized DFS: the `visited` matrix (as the list of
cells currently marked true), the growing `path`, and the RNG position. -/
structure SearchSt where
  visited : List Cell
  path : List Cell
  k : Nat

/-- `visited[r][c] = true; path.push({row, col})` (the cell is marked only
when currently unmarked, so consing represents the matrix update). -/
def markPush (st : SearchSt) (r c : Int) : SearchSt :=
  { st with
    visited := ⟨r, c⟩ :: st.visited
    path := st.path ++ [⟨r, c⟩] }

/-- `visited[r][c] = false; path.pop()` on backtrack. -/
def unmarkPop (st : SearchSt) (r c : Int) : SearchSt :=
  { st with
    visited := st.visited.erase ⟨r, c⟩
    path := st.path.dropLast }

/-- The `for (const d of neighbors)` loop of `dfs`: skip out-of-bounds or
visited targets, recurse into the rest (`go` is the recursive call at the
next depth). -/
def tryDirs (go : SearchSt → Int → Int → Bool × SearchSt) (size : Nat) (r c : Int) :
    List Dir → SearchSt → Bool × SearchSt
  | [], st => (false, st)
  | d :: ds, st =>
    let nr := r + d.dr
    let nc := c + d.dc
    if ¬ inBoundsB size nr nc ∨ st.visited.contains ⟨nr, nc⟩ then tryDirs go size r c ds st
    else
      match go st nr nc with
      | (true, st') => (true, st')
      | (false, st') => tryDirs go size r c ds st'

/-- The candidate list computed inside `dfs` before the neighbour loop:
`shuffledNeighbors` followed by the occasional pair swap (both reading and
advancing the RNG). -/
def dfsNeighbors (g : Nat → Nat) (size : Nat) (st1 : SearchSt) (r c : Int)
    (depth : Nat) : List Dir × Nat :=
  let nk := shuffledNeighbors g size st1.visited r c depth st1.k
  maybeSwap g nk.1 nk.2

/-- `dfs(r, c, depth)`.  The recursion is fuelled: the driver passes
`fuel = total`, which is never exhausted because each nested call increases
`depth` by one and the recursion stops at `depth = total` (so the `fuel = 0`
branch is unreachable from the driver; it exists only to make the
recursion structural). -/
def dfsGo (g : Nat → Nat) (size total : Nat) :
    Nat → SearchSt → Int → Int → Nat → Bool × SearchSt
  | 0, st, _, _, _ => (false, st)
  | fuel + 1, st, r, c, depth =>
    let st1 := markPush st r c
    if depth = total then (true, st1)
    else
      let mk := dfsNeighbors g size st1 r c depth
      let st2 : SearchSt := { st1 with k := mk.2 }
      match tryDirs (fun s nr nc => dfsGo g size total fuel s nr nc (depth + 1))
          size r c mk.1 st2 with
      | (true, st') => (true, st')
      | (false, st') => (false, unmarkPop st' r c)

/-- The bounded retry loop (`maxAttempts = 12`): attempt 0 uses the start
drawn before the loop, later attempts draw a fresh start; `visited`/`path`
are cleared per attempt while the RNG stream continues. -/
def attemptsLoop (g : Nat → Nat) (size total : Nat) :
    Nat → Nat → Option Cell → Option (List Cell) × Nat
  | 0, k, _ => (none, k)
  | rem + 1, k, firstStart =>
    let sk : Cell × Nat :=
      match firstStart with
      | some s0 => (s0, k)
      | none =>
        (⟨Int.ofNat (floorMul (g k) size), Int.ofNat (floorMul (g (k + 1)) size)⟩, k + 2)
    let st0 : SearchSt := ⟨[], [], sk.2⟩
    match dfsGo g size total total st0 sk.1.row sk.1.col 1 with
    | (true, st') =>
        if st'.path.length = total then (some st'.path, st'.k)
        else attemptsLoop g size total rem st'.k none
    | (false, st') => attemptsLoop g size total rem st'.k none

/-- The "final measure" fallback after the retry budget: shuffle the column
order, then sweep each chosen column top-down or bottom-up alternately. -/
def buildFallback (g : Nat → Nat) (size k : Nat) : List Cell :=
  let fy := fyLoop g (List.range size) k (size - 1)
  fy.1.enum.flatMap fun ic =>
    let rOrder := if ic.1 % 2 = 0 then List.range size else (List.range size).reverse
    rOrder.map fun r => (⟨Int.ofNat r, Int.ofNat ic.2⟩ : Cell)

/-- Embedding of `buildRandomHamiltonianPath(size, seed)` over an abstract
RNG output stream `g` (instantiate `g := mulberryStream (u32 seed)` for the
seeded behaviour): random start (draws 0 and 1), 12 DFS attempts, then the
column-sweep fallback. -/
def buildRandomHamiltonianPath (g : Nat → Nat) (size : Nat) : List Cell :=
  let total := size * size
  let start : Cell := ⟨Int.ofNat (floorMul (g 0) size), Int.ofNat (floorMul (g 1) size)⟩
  match attemptsLoop g size total 12 2 (some start) with
  | (some p, _) => p
  | (none, k) => buildFallback g size k

/-- `Math.round(p / q)` for nonnegative integers, with JS's
round-half-towards-plus-infinity: `floor(p/q + 1/2) = (2p + q) / (2q)`.
(The JS division is a float; at a halfway representation boundary the two can
differ by one, but every theorem below holds for arbitrary base indices, so
nothing depends on the exact value.) -/
def jsRound (p q : Nat) : Nat := (2 * p + q) / (2 * q)

/-- The even-spaced base indices of `generateGrid` for digits
`1..digitCountBeforeLast` (`cnt` is `digitCountBeforeLast`). -/
def baseIndices (total cnt : Nat) : List Nat :=
  (List.range cnt).map fun i =>
    if cnt = 1 then 0 else jsRound (i * (total - 2)) (max 1 (cnt - 1))

/-- `Math.min(total - 2, Math.max(0, idx + j))`.  (`total - 2` is `Nat`
subtraction; the JS value would be `-1` for `total = 1`, but in that case
`digitCountBeforeLast = 0` and the list of jittered indices is empty.) -/
def clampIdx (total : Nat) (x : Int) : Nat :=
  (min (Int.ofNat (total - 2)) (max 0 x)).toNat

/-- The jittered indices before sorting: `jit i` is the integer value of
`Math.floor((rng() * 2 - 1) * jitterMax * scale)` for the `i`-th entry
(with `jitterMax = max(1, floor(total / (maxDigit * 3)))` and scale `0.4`
for `i = 0`, `1.0` otherwise); the float product has no exact embedding, so
the oracle stands for whatever integers the floats produce, and every
theorem holds for all of them. -/
def jitteredRaw (total : Nat) (jit : Nat → Int) (base : List Nat) : List Nat :=
  base.enum.map fun ib => clampIdx total (Int.ofNat ib.2 + jit ib.1)

/-- The forward collision-fixing pass
(`if (a[i] <= a[i-1]) a[i] = a[i-1] + 1; if (a[i] > total-2) a[i] = total-2`),
`prev` being the already-updated previous entry and `t = total - 2`. -/
def fixFwd (t : Nat) : Nat → List Nat → List Nat
  | _, [] => []
  | prev, x :: xs =>
    let x1 := if x ≤ prev then prev + 1 else x
    let x2 := if t < x1 then t else x1
    x2 :: fixFwd t x2 xs

/-- The forward pass applied from index 1 onwards (index 0 is untouched). -/
def fwdPass (t : Nat) : List Nat → List Nat
  | [] => []
  | h :: rest => h :: fixFwd t h rest

/-- The backward spreading pass
(`for (i = len-2; i >= 0; i--) if (a[i] >= a[i+1]) a[i] = max(0, a[i+1]-1)`);
processing right-to-left means recursing on the tail first.  `max(0, y-1)`
is `Nat` truncated subtraction. -/
def fixBwd : List Nat → List Nat
  | [] => []
  | [x] => [x]
  | x :: y :: rest =>
    match fixBwd (y :: rest) with
    | [] => [x]
    | y' :: r => (if y' ≤ x then y' - 1 else x) :: y' :: r

/-- The digit-placement loop of `generateGrid`: digit `d` goes to
`path[jittered[d-1]]` and the maximum digit to `path[total-1]`. -/
def placeDigits (path : List Cell) (total maxD : Nat) (idxs : List Nat)
    (grid0 : Grid) : Grid :=
  (List.range maxD).foldl
    (fun acc i =>
      let d := i + 1
      let idx := if d = maxD then total - 1 else idxs.getD (d - 1) 0
      gridSet acc (path.getD idx ⟨0, 0⟩) d)
    grid0

/-- Embedding of `generateGrid(size, seed)` over the RNG output stream `g`
and the jitter oracle `jit` (see `jitteredRaw`).  Both `buildRandomHamiltonianPath`
and the jitter draw from `createRng(seed)`, each from a fresh generator, so
both consume the same stream `g` from its beginning. -/
def generateGrid (size : Nat) (g : Nat → Nat) (jit : Nat → Int) : Grid :=
  let grid0 : Grid := List.replicate size (List.replicate size none)
  let path := buildRandomHamiltonianPath g size
  let total := path.length
  let maxD := min 9 total
  if maxD = 0 then grid0
  else
    let cnt := maxD - 1
    let sorted := stableSortBy (fun x => x)
      (jitteredRaw total jit (baseIndices total cnt))
    placeDigits path total maxD (fixBwd (fwdPass (total - 2) sorted)) grid0

/-- `generateGrid` as called with a finite numeric seed: the RNG stream is
`createRng (some seed) crypto` (which ignores the high-entropy source), and
`jm` maps the chosen stream to the jitter integers (the float computation,
a function of the same stream). -/
def generateGridSeeded (size seed : Nat) (crypto : Nat → Nat)
    (jm : (Nat → Nat) → Nat → Int) : Grid :=
  let g := createRng (some seed) crypto
  generateGrid size g (jm g)

/-- The session state held by the `useGameState` hook: one field per
`useState`, plus `rk`, the number of `randomSeed()` draws made so far (the
high-entropy source is modelled as a stream indexed by `rk`). -/
structure EngineState where
  gridSeed : Nat
  grid : Grid
  path : List Cell
  history : List (List Cell)
  isDrawing : Bool
  completed : Bool
  validation : VResult
  invalidAt : Option Cell
  started : Bool
  rk : Nat
deriving DecidableEq, Repr

/-- The `isInside` callback (`gridSize` is `grid.length`). -/
def isInside (st : EngineState) (row col : Int) : Bool :=
  0 ≤ row && row < (st.grid.length : Int) && 0 ≤ col && col < (st.grid.length : Int)

/-- The `hasOne` scan of `startPathAt` (the JS `break` only leaves the inner
column loop, so the result is simply whether some cell holds 1). -/
def gridHasOne (grid : Grid) : Bool :=
  (List.range grid.length).any fun r =>
    (List.range grid.length).any fun c => gridVal grid ⟨r, c⟩ == some 1

/-- Embedding of `startPathAt(row, col)`. -/
def startPathAt (st : EngineState) (row col : Int) : EngineState :=
  if st.started = false then st
  else if ¬ isInside st row col then st
  else
    let st1 := { st with invalidAt := none }
    if gridHasOne st.grid ∧ gridVal st.grid ⟨row, col⟩ ≠ some 1 then
      { st1 with
        invalidAt := some ⟨row, col⟩
        isDrawing := false
        validation := ⟨false, "Start on 1 to begin the sequence"⟩ }
    else
      { st1 with
        history := st.history ++ [[⟨row, col⟩]]
        path := [⟨row, col⟩]
        isDrawing := true }

/-- Embedding of `extendPathTo(row, col)`.  The result is `none` exactly when
the JS throws: with an empty path, `last` is `undefined`, the guard
`if (last && …)` falls through, and `isAdjacent(last, {row, col})` reads
`.row` of `undefined` (TypeError). -/
def extendPathTo (st : EngineState) (row col : Int) : Option EngineState :=
  if st.started = false then some st
  else if ¬ isInside st row col then some st
  else if st.isDrawing = false then some st
  else
    let st1 := { st with invalidAt := none }
    match st.path.getLast? with
    | none => none
    | some last =>
      if last = ⟨row, col⟩ then some st1
      else if ¬ isAdjacent last ⟨row, col⟩ then some st1
      else if 2 ≤ st.path.length ∧ st.path.getD (st.path.length - 2) ⟨0, 0⟩ = ⟨row, col⟩ then
        some { st1 with
               path := st.path.dropLast
               history := st.history ++ [st.path.dropLast] }
      else if ⟨row, col⟩ ∈ st.path then
        some { st1 with
               invalidAt := some ⟨row, col⟩
               validation := ⟨false, "Cannot revisit a previous cell"⟩ }
      else
        match gridVal st.grid ⟨row, col⟩ with
        | some v =>
          if v ≠ nextRequiredDigitFromPath st.grid st.path then
            some { st1 with
                   invalidAt := some ⟨row, col⟩
                   validation := ⟨false, "You must go to "
                     ++ toString (nextRequiredDigitFromPath st.grid st.path) ++ " next"⟩ }
          else
            some { st1 with
                   path := st.path ++ [⟨row, col⟩]
                   history := st.history ++ [st.path ++ [⟨row, col⟩]] }
        | none =>
            some { st1 with
                   path := st.path ++ [⟨row, col⟩]
                   history := st.history ++ [st.path ++ [⟨row, col⟩]] }

/-- Embedding of `endPath()`: stop drawing; on full coverage run the
validator, record the result and set `completed` accordingly (the path and
history are left as they are in either case). -/
def endPath (st : EngineState) : EngineState :=
  let st1 := { st with isDrawing := false }
  if st.path.length = st.grid.length * st.grid.length then
    let res := validatePath st.grid st.path
    { st1 with validation := res, completed := res.ok }
  else st1

/-- Embedding of `undo()`. -/
def undo (st : EngineState) : EngineState :=
  if st.history.length ≤ 1 then
    { st with invalidAt := none, path := [], history := [],
              completed := false, validation := ⟨false, ""⟩ }
  else
    { st with
      invalidAt := none
      history := st.history.dropLast
      path := (st.history.dropLast.getLast?).getD []
      completed := false
      validation := ⟨false, ""⟩ }

/-- Embedding of `clearTransientState()` (note: it does **not** touch
`isDrawing`). -/
def clearTransientState (st : EngineState) : EngineState :=
  { st with invalidAt := none, path := [], history := [],
            completed := false, validation := ⟨false, ""⟩ }

/-- `reset()` delegates to `clearTransientState`. -/
def reset (st : EngineState) : EngineState := clearTransientState st

/-- Embedding of `resetAll()`: clear everything, leave the pre-game state and
restore the initial seed (the grid effect regenerates from it; `regen s`
stands for `generateGrid(size, s)`). -/
def resetAll (regen : Nat → Grid) (initialSeed : Nat) (st : EngineState) : EngineState :=
  { st with isDrawing := false, invalidAt := none, path := [], history := [],
            completed := false, validation := ⟨false, ""⟩, started := false,
            gridSeed := initialSeed, grid := regen initialSeed }

/-- Embedding of `startGame()`: set `started`, draw a fresh seed and re-roll
once if it collides with the current one (`sstream` is the `randomSeed()`
output stream, consumed at index `rk`). -/
def startGame (regen : Nat → Grid) (sstream : Nat → Nat) (st : EngineState) : EngineState :=
  let s1 := sstream st.rk
  let nk : Nat × Nat :=
    if s1 = st.gridSeed then (sstream (st.rk + 1), st.rk + 2) else (s1, st.rk + 1)
  { st with started := true, gridSeed := nk.1, grid := regen nk.1, rk := nk.2 }

/-- Embedding of `restartGame()`: a single fresh `randomSeed()` draw (no
re-roll guard), cleared transient state, `started := true` (`isDrawing` is
not touched, exactly as in the JS). -/
def restartGame (regen : Nat → Grid) (sstream : Nat → Nat) (st : EngineState) : EngineState :=
  let newSeed := sstream st.rk
  { st with gridSeed := newSeed, grid := regen newSeed, rk := st.rk + 1,
            invalidAt := none, path := [], history := [], completed := false,
            validation := ⟨false, ""⟩, started := true }

/-- Embedding of `cancelCurrentRunIfIncomplete()`. -/
def cancelCurrentRunIfIncomplete (st : EngineState) : EngineState :=
  if st.path.length ≠ st.grid.length * st.grid.length then
    { st with isDrawing := false, invalidAt := none, path := [], history := [],
              completed := false, validation := ⟨false, ""⟩ }
  else st

/-- Embedding of `onPointerUp()`: the release event. -/
def onPointerUp (st : EngineState) : EngineState :=
  if st.isDrawing = false then st
  else if st.path.length = st.grid.length * st.grid.length then endPath st
  else cancelCurrentRunIfIncomplete st

/-- The player events and lifecycle commands of the interaction engine. -/
inductive GEvent where
  | press (row col : Int)
  | dragEnter (row col : Int)
  | release
  | undoEv
  | resetEv
  | resetAllEv
  | startEv
  | restartEv
deriving DecidableEq, Repr

/-- One event applied to a state; `none` when the handler throws (only
possible for `dragEnter`, see `extendPathTo`). -/
def applyEvent (regen : Nat → Grid) (sstream : Nat → Nat) (initialSeed : Nat) :
    GEvent → EngineState → Option EngineState
  | GEvent.press r c, st => some (startPathAt st r c)
  | GEvent.dragEnter r c, st => extendPathTo st r c
  | GEvent.release, st => some (onPointerUp st)
  | GEvent.undoEv, st => some (undo st)
  | GEvent.resetEv, st => some (reset st)
  | GEvent.resetAllEv, st => some (resetAll regen initialSeed st)
  | GEvent.startEv, st => some (startGame regen sstream st)
  | GEvent.restartEv, st => some (restartGame regen sstream st)

/-- The state the hook mounts with. -/
def initState (regen : Nat → Grid) (initialSeed : Nat) : EngineState :=
  { gridSeed := initialSeed, grid := regen initialSeed, path := [], history := [],
    isDrawing := false, completed := false, validation := ⟨false, ""⟩,
    invalidAt := none, started := false, rk := 0 }

/-- One (non-throwing) engine transition. -/
def EngStep (regen : Nat → Grid) (sstream : Nat → Nat) (initialSeed : Nat)
    (st st' : EngineState) : Prop :=
  ∃ e, applyEvent regen sstream initialSeed e st = some st'

/-- States reachable from the mount state by any sequence of events. -/
def Reachable (regen : Nat → Grid) (sstream : Nat → Nat) (initialSeed : Nat)
    (st : EngineState) : Prop :=
  Relation.ReflTransGen (EngStep regen sstream initialSeed) (initState regen initialSeed) st

/-- Specification-side property: the list consists of exactly `size * size`
cells and every cell of the `size × size` grid appears in it exactly once. -/
def coversEachOnce (size : Nat) (p : List Cell) : Prop :=
  p.length = size * size ∧ ∀ x, cellInBounds size x → p.count x = 1

/-- Specification-side property: every pair of consecutive cells is
4-adjacent (Manhattan distance 1). -/
def chainAdjacent (p : List Cell) : Prop :=
  p.Chain' fun a b => isAdjacent a b = true

/-- The guarantee of the randomized-DFS stage of
`buildRandomHamiltonianPath`: whenever the retry loop itself produces the
returned path (the fallback is not used), consecutive cells are 4-adjacent. -/
def dfsBranchAdjacent (g : Nat → Nat) (size : Nat) : Prop :=
  ∀ p k,
    attemptsLoop g size (size * size) 12 2
      (some ⟨Int.ofNat (floorMul (g 0) size), Int.ofNat (floorMul (g 1) size)⟩)
      = (some p, k) →
    pairwiseAdjacentB p = true

/-- A digit value occurs somewhere on the grid. -/
def occursInGrid (grid : Grid) (v : Nat) : Prop :=
  ∃ x, gridVal grid x = some v

/-- Specification-side reading of `validatePath`'s check (4): every digit `d`
from 1 to `maxDigit - 1` occurs in the grid together with `d + 1`, and `d`'s
path position is strictly before that of `d + 1`. -/
def specDigitsAscending (grid : Grid) (path : List Cell) : Prop :=
  ∀ d, 1 ≤ d → d < maxDigitOf grid →
    occursInGrid grid d ∧ occursInGrid grid (d + 1) ∧
    ∃ i j, posOf grid path d = some i ∧ posOf grid path (d + 1) = some j ∧ i < j

/-- Specification-side reading of `validatePath`'s check (5): the path's last
cell carries the maximum digit. -/
def specEndsOnMax (grid : Grid) (path : List Cell) : Prop :=
  ∃ x, path.getLast? = some x ∧ gridVal grid x = some (maxDigitOf grid)

/-- An RNG output stream that drives `buildRandomHamiltonianPath 3` into the
fallback: every one of the 12 attempts starts at cell (0,1) — a minority
colour cell of the 3×3 grid, from which no Hamiltonian path exists, so each
attempt's exhaustive search fails after consuming exactly 506 draws — and
the two fallback shuffle draws then produce the column order `[0, 2, 1]`. -/
def gBad : Nat → Nat := fun i =>
  if i = 6073 then 3000000000
  else if i % 506 = 1 ∧ i ≤ 6073 then 2000000000
  else if i = 6072 then 2000000000
  else 0

/-- The invariant maintained by the randomized DFS: `visited` marks exactly
the path's cells, and the path is duplicate-free, 4-connected and in
bounds. -/
def SearchInv (size : Nat) (st : SearchSt) : Prop :=
  (∀ x, x ∈ st.visited ↔ x ∈ st.path) ∧
  st.path.Nodup ∧ chainAdjacent st.path ∧ ∀ x ∈ st.path, cellInBounds size x

/-- The engine's reachable-state invariant: the grid keeps its size, drawing
implies started, the history mirrors the path (last snapshot = current path,
empty iff empty) and every snapshot is a non-empty in-bounds 4-connected
chain. -/
def EngInv (size : Nat) (st : EngineState) : Prop :=
  st.grid.length = size ∧
  (st.isDrawing = true → st.started = true) ∧
  (st.history = [] ↔ st.path = []) ∧
  (st.history ≠ [] → st.history.getLast? = some st.path) ∧
  (∀ h ∈ st.history, h ≠ [] ∧ chainAdjacent h ∧ ∀ x ∈ h, cellInBounds size x)

/-- A fixed regeneration function for concrete engine runs: every seed yields
the same 2×2 grid with the single digit 1 at (0,0) (the engine never
inspects more of the grid in these runs). -/
def regen1 : Nat → Grid := fun _ => [[some 1, none], [none, none]]

/-- A constant `randomSeed()` stream for concrete engine runs. -/
def sstream0 : Nat → Nat := fun _ => 0

/-- Session state after `start`, a press on the 1-cell and `reset`: the reset
cleared the path and history but left `isDrawing = true`. -/
def bugState : EngineState :=
  { gridSeed := 0, grid := [[some 1, none], [none, none]], path := [],
    history := [], isDrawing := true, completed := false,
    validation := ⟨false, ""⟩, invalidAt := none, started := true, rk := 2 }

/-- Session state after `start`, pressing (0,0) and dragging to (0,1) with
the grid `regen1 0`: two cells drawn, two history snapshots. -/
def c5State : EngineState :=
  { gridSeed := 0, grid := [[some 1, none], [none, none]],
    path := [⟨0, 0⟩, ⟨0, 1⟩], history := [[⟨0, 0⟩], [⟨0, 0⟩, ⟨0, 1⟩]],
    isDrawing := true, completed := false, validation := ⟨false, ""⟩,
    invalidAt := none, started := true, rk := 2 }

/-- A drawing state on a 1×1 grid whose single-cell path has full coverage
but fails validation (the empty grid has `maxDigit = 0` and the last cell
carries no digit). -/
def c2State : EngineState :=
  { gridSeed := 0, grid := [[none]], path := [⟨0, 0⟩], history := [[⟨0, 0⟩]],
    isDrawing := true, completed := false, validation := ⟨false, ""⟩,
    invalidAt := none, started := true, rk := 0 }

/-- A started state with seed 5 for the restart counterexample. -/
def c6State : EngineState :=
  { gridSeed := 5, grid := [[none]], path := [], history := [],
    isDrawing := false, completed := false, validation := ⟨false, ""⟩,
    invalidAt := none, started := true, rk := 0 }

/-- A `randomSeed()` stream whose first draw collides with seed 5 and whose
re-roll draw would be 7. -/
def c6Stream : Nat → Nat := fun i => if i = 0 then 5 else 7

/-- Well-formedness of a grid matrix: `size` rows of `size` entries. -/
def GridWF (size : Nat) (grid : Grid) : Prop :=
  grid.length = size ∧ ∀ row ∈ grid, row.length = size

/-- The path index digit `i + 1` is placed at by `placeDigits`: the final
path position for the maximum digit, the `(d-1)`-th jittered index
otherwise. -/
def placeIdx (total maxD : Nat) (idxs : List Nat) (i : Nat) : Nat :=
  if i + 1 = maxD then total - 1 else idxs.getD (i + 1 - 1) 0

/-- The cell digit `i + 1` is placed on by `placeDigits`. -/
def placeCell (path : List Cell) (maxD : Nat) (idxs : List Nat) (i : Nat) : Cell :=
  path.getD (placeIdx path.length maxD idxs i) ⟨0, 0⟩

/-- C9: `generateGrid` is deterministic for a finite numeric seed — two calls
with identical size and seed produce identical grids, whatever the
high-entropy source would have returned (with a numeric seed, `createRng`
selects the `mulberry32` stream, the only randomness on that path; `jm` is
the jitter-float computation, a function of the selected stream). -/
theorem c9_generateGrid_deterministic :
    ∀ (size : Nat) (c₁ c₂ : Nat → Nat) (jm : (Nat → Nat) → Nat → Int) (s₁ s₂ : Nat),
      s₁ = s₂ →
      generateGridSeeded size s₁ c₁ jm = generateGridSeeded size s₂ c₂ jm := by
  intro size c₁ c₂ jm s₁ s₂ h
  subst h
  rfl

/-- Witness for C9 at size 1, seed 0, with two different high-entropy
sources. -/
theorem c9_witness :
    generateGridSeeded 1 0 (fun _ => 0) (fun _ _ => 0) =
      generateGridSeeded 1 0 (fun i => i + 1) (fun _ _ => 0) :=
  c9_generateGrid_deterministic 1 (fun _ => 0) (fun i => i + 1) (fun _ _ => 0) 0 0 rfl

/-- C6 (amended): after `restart`, `started` is true, the path and history
are empty, `completed` is false, and the new grid seed is a single fresh
draw from the randomness source, taken without any re-roll-on-collision
guard. -/
theorem c6_restart_amended :
    ∀ (regen : Nat → Grid) (sstream : Nat → Nat) (st : EngineState),
      restartGame regen sstream st =
        { st with gridSeed := sstream st.rk, grid := regen (sstream st.rk),
                  rk := st.rk + 1, invalidAt := none, path := [], history := [],
                  completed := false, validation := ⟨false, ""⟩, started := true } := by
  intro regen sstream st
  rfl

/-- Counterexample for C6 as stated: from a state with seed 5 and a stream
drawing 5 then 7, `restartGame` keeps the colliding seed 5 even though the
re-roll (7) would have avoided the collision — there is no re-roll guard in
`restartGame` (the guard exists only in `startGame`). -/
theorem c6_counterexample :
    (restartGame regen1 c6Stream c6State).gridSeed = c6State.gridSeed ∧
    c6Stream 1 ≠ c6State.gridSeed := by
  constructor
  · rfl
  · decide

/-- C2 (amended): in a drawing state whose path covers all `N²` cells, a
release invokes the validator, records its result, sets `completed` to the
verdict and stops drawing — and leaves the path and history exactly as they
were (a failed full-coverage attempt is kept, not discarded). -/
theorem c2_release_validates_keeps_path :
    ∀ st : EngineState, st.isDrawing = true →
      st.path.length = st.grid.length * st.grid.length →
      onPointerUp st =
        { st with isDrawing := false,
                  validation := validatePath st.grid st.path,
                  completed := (validatePath st.grid st.path).ok } := by
  intro st h1 h2
  simp [onPointerUp, h1, h2, endPath]

/-- Witness for C2's amended theorem on a concrete full-coverage drawing
state. -/
theorem c2_witness :
    onPointerUp c2State =
      { c2State with isDrawing := false,
                     validation := validatePath c2State.grid c2State.path,
                     completed := (validatePath c2State.grid c2State.path).ok } :=
  c2_release_validates_keeps_path c2State (by decide) (by decide)

/-- Counterexample for C2 as stated: `c2State` is a drawing state with full
coverage whose validation fails, yet the release clears neither the path nor
the history. -/
theorem c2_counterexample :
    (validatePath c2State.grid c2State.path).ok = false ∧
    c2State.path.length = c2State.grid.length * c2State.grid.length ∧
    c2State.isDrawing = true ∧
    (onPointerUp c2State).path ≠ [] ∧ (onPointerUp c2State).history ≠ [] := by
  decide

/-- C10: a press accepted while a path is already drawn (started, in bounds,
and on the 1-cell whenever the grid has a 1) replaces the path with the
single pressed cell and appends the new snapshot to the existing history,
leaving every earlier snapshot unchanged. -/
theorem c10_start_appends_history :
    ∀ (st : EngineState) (row col : Int),
      st.path ≠ [] →
      st.started = true →
      isInside st row col = true →
      (gridHasOne st.grid = true → gridVal st.grid ⟨row, col⟩ = some 1) →
      startPathAt st row col =
        { st with invalidAt := none, path := [⟨row, col⟩],
                  history := st.history ++ [[⟨row, col⟩]], isDrawing := true } := by
  intro st row col _ hs hin hone
  rw [startPathAt]
  rw [if_neg (by simp [hs]), if_neg (by simp [hin]), if_neg]
  intro hcon
  exact hcon.2 (hone hcon.1)

/-- Witness for C10: pressing (0,0) in `c5State`, whose path and history are
non-empty; the prior snapshots stay in place. -/
theorem c10_witness :
    startPathAt c5State 0 0 =
      { c5State with invalidAt := none, path := [⟨0, 0⟩],
                     history := c5State.history ++ [[⟨0, 0⟩]], isDrawing := true } :=
  c10_start_appends_history c5State 0 0 (by decide) (by decide) (by decide)
    (fun _ => by decide)

/-- C7: the state `bugState` — drawing flag set, path empty — is reachable
(start, press the 1-cell, reset; `reset` does not clear `isDrawing`), and in
it the drag-enter handler `extendPathTo` dereferences the missing last cell:
`last` is `undefined` and `isAdjacent(last, …)` throws (embedded as
`none`). -/
theorem c7_bug :
    Reachable regen1 sstream0 0 bugState ∧ extendPathTo bugState 0 1 = none := by
  constructor
  · exact Relation.ReflTransGen.tail
      (Relation.ReflTransGen.tail
        (Relation.ReflTransGen.tail Relation.ReflTransGen.refl
          (⟨GEvent.startEv, by decide⟩ :
            EngStep regen1 sstream0 0 (initState regen1 0)
              { gridSeed := 0, grid := [[some 1, none], [none, none]], path := [],
                history := [], isDrawing := false, completed := false,
                validation := ⟨false, ""⟩, invalidAt := none, started := true, rk := 2 }))
        (⟨GEvent.press 0 0, by decide⟩ :
          EngStep regen1 sstream0 0
            { gridSeed := 0, grid := [[some 1, none], [none, none]], path := [],
              history := [], isDrawing := false, completed := false,
              validation := ⟨false, ""⟩, invalidAt := none, started := true, rk := 2 }
            { gridSeed := 0, grid := [[some 1, none], [none, none]], path := [⟨0, 0⟩],
              history := [[⟨0, 0⟩]], isDrawing := true, completed := false,
              validation := ⟨false, ""⟩, invalidAt := none, started := true, rk := 2 }))
      (⟨GEvent.resetEv, by decide⟩ :
        EngStep regen1 sstream0 0
          { gridSeed := 0, grid := [[some 1, none], [none, none]], path := [⟨0, 0⟩],
            history := [[⟨0, 0⟩]], isDrawing := true, completed := false,
            validation := ⟨false, ""⟩, invalidAt := none, started := true, rk := 2 }
          bugState)
  · decide


/-- The JS `Set`-based uniqueness test (`seen.size !== path.length`, via the
injective string key) succeeds exactly on duplicate-free paths. -/
theorem dedup_length_iff (p : List Cell) : p.dedup.length = p.length ↔ p.Nodup := by
  constructor
  · intro h
    have hsub := List.dedup_sublist p
    have heq : p.dedup = p := hsub.eq_of_length h
    have hn := p.nodup_dedup
    rwa [heq] at hn
  · intro h
    rw [List.dedup_eq_self.2 h]

/-- The adjacency loop of `validatePath` succeeds exactly when consecutive
cells form a 4-adjacent chain. -/
theorem pairwiseAdjacentB_iff (p : List Cell) :
    pairwiseAdjacentB p = true ↔ chainAdjacent p := by
  induction p with
  | nil => simp [pairwiseAdjacentB, chainAdjacent]
  | cons a rest ih =>
    cases rest with
    | nil => simp [pairwiseAdjacentB, chainAdjacent]
    | cons b r =>
      rw [pairwiseAdjacentB, chainAdjacent, List.chain'_cons, Bool.and_eq_true]
      rw [chainAdjacent] at ih
      rw [ih]

/-- Unpacking a defined `positions[v]` entry: the index is a real path index
whose cell carries `v`. -/
theorem posOf_eq_some (grid : Grid) (path : List Cell) (v i : Nat)
    (h : posOf grid path v = some i) :
    ∃ x, path[i]? = some x ∧ gridVal grid x = some v := by
  rw [posOf, Option.map_eq_some'] at h
  obtain ⟨⟨i', x⟩, hlast, hfst⟩ := h
  have hmem := List.mem_of_getLast?_eq_some hlast
  rw [List.mem_filter] at hmem
  obtain ⟨henum, hval⟩ := hmem
  rw [List.mem_enum_iff_getElem?] at henum
  cases hfst
  exact ⟨x, henum, by simpa using hval⟩

/-- Two digits cannot share a path position. -/
theorem posOf_inj (grid : Grid) (path : List Cell) (v w i : Nat)
    (hv : posOf grid path v = some i) (hw : posOf grid path w = some i) : v = w := by
  obtain ⟨x, hx, hxv⟩ := posOf_eq_some grid path v i hv
  obtain ⟨y, hy, hyw⟩ := posOf_eq_some grid path w i hw
  rw [hx] at hy
  cases hy
  rw [hxv] at hyw
  cases hyw
  rfl

/-- Characterisation of the ascending-digits loop returning no failure. -/
theorem checkDigits_none_iff (grid : Grid) (path : List Cell) :
    ∀ (fd d : Nat), checkDigits grid path fd d = none ↔
      ∀ t, t < fd → ∃ i j, posOf grid path (d + t) = some i ∧
        posOf grid path (d + t + 1) = some j ∧ ¬ j < i := by
  intro fd
  induction fd with
  | zero => intro d; simp [checkDigits]
  | succ fd ih =>
    intro d
    cases hd : posOf grid path d with
    | none =>
        simp only [checkDigits, hd, reduceCtorEq, false_iff]
        intro hall
        obtain ⟨i, j, hi, _, _⟩ := hall 0 (Nat.succ_pos fd)
        rw [Nat.add_zero, hd] at hi
        exact absurd hi (by simp)
    | some i =>
      cases hd1 : posOf grid path (d + 1) with
      | none =>
          simp only [checkDigits, hd, hd1, reduceCtorEq, false_iff]
          intro hall
          obtain ⟨i', j', _, hj, _⟩ := hall 0 (Nat.succ_pos fd)
          rw [Nat.add_zero, hd1] at hj
          exact absurd hj (by simp)
      | some j =>
        by_cases hji : j < i
        · simp only [checkDigits, hd, hd1, if_pos hji, reduceCtorEq, false_iff]
          intro hall
          obtain ⟨i', j', hi', hj', hnot⟩ := hall 0 (Nat.succ_pos fd)
          rw [Nat.add_zero, hd] at hi'
          rw [Nat.add_zero, hd1] at hj'
          cases hi'
          cases hj'
          exact hnot hji
        · simp only [checkDigits, hd, hd1, if_neg hji]
          rw [ih (d + 1)]
          constructor
          · intro hnone t ht
            cases t with
            | zero => exact ⟨i, j, by simpa using hd, by simpa using hd1, hji⟩
            | succ t =>
              obtain ⟨i', j', h1', h2', h3'⟩ := hnone t (by omega)
              refine ⟨i', j', ?_, ?_, h3'⟩
              · rw [show d + (t + 1) = d + 1 + t from by omega]; exact h1'
              · rw [show d + (t + 1) + 1 = d + 1 + t + 1 from by omega]; exact h2'
          · intro hall t ht
            obtain ⟨i', j', h1', h2', h3'⟩ := hall (t + 1) (by omega)
            refine ⟨i', j', ?_, ?_, h3'⟩
            · rw [show d + 1 + t = d + (t + 1) from by omega]; exact h1'
            · rw [show d + 1 + t + 1 = d + (t + 1) + 1 from by omega]; exact h2'

/-- The ascending-digits loop can only fail with one of its two reasons. -/
theorem checkDigits_reasons (grid : Grid) (path : List Cell) :
    ∀ (fd d : Nat) (r : String), checkDigits grid path fd d = some r →
      r = "Missing numbered cells in path" ∨
      r = "Digits are not in ascending order along the path" := by
  intro fd
  induction fd with
  | zero => intro d r h; simp [checkDigits] at h
  | succ fd ih =>
    intro d r h
    cases hd : posOf grid path d with
    | none =>
        simp only [checkDigits, hd, Option.some.injEq] at h
        exact Or.inl h.symm
    | some i =>
      cases hd1 : posOf grid path (d + 1) with
      | none =>
          simp only [checkDigits, hd, hd1, Option.some.injEq] at h
          exact Or.inl h.symm
      | some j =>
        by_cases hji : j < i
        · simp only [checkDigits, hd, hd1, if_pos hji, Option.some.injEq] at h
          exact Or.inr h.symm
        · simp only [checkDigits, hd, hd1, if_neg hji] at h
          exact ih (d + 1) r h

/-- The spec's reading of check (4) holds exactly when the code's
ascending-digits loop reports no failure. -/
theorem specAsc_iff_checkDigits (grid : Grid) (path : List Cell) :
    specDigitsAscending grid path ↔
      checkDigits grid path (maxDigitOf grid - 1) 1 = none := by
  rw [checkDigits_none_iff]
  constructor
  · intro hs t ht
    obtain ⟨_, _, i, j, hi, hj, hij⟩ := hs (1 + t) (by omega) (by omega)
    refine ⟨i, j, hi, ?_, by omega⟩
    rw [show 1 + t + 1 = 1 + t + 1 from rfl]
    exact hj
  · intro hc d h1 h2
    obtain ⟨i, j, hi, hj, hn⟩ := hc (d - 1) (by omega)
    rw [show 1 + (d - 1) = d from by omega] at hi
    rw [show 1 + (d - 1) + 1 = d + 1 from by omega] at hj
    have hne : i ≠ j := by
      intro he
      subst he
      have := posOf_inj grid path d (d + 1) i hi hj
      omega
    obtain ⟨x, _, hx⟩ := posOf_eq_some grid path d i hi
    obtain ⟨y, _, hy⟩ := posOf_eq_some grid path (d + 1) j hj
    exact ⟨⟨x, hx⟩, ⟨y, hy⟩, i, j, hi, hj, by omega⟩

/-- The spec's reading of check (5) holds exactly when the code's last-value
comparison succeeds. -/
theorem endsOnMax_iff (grid : Grid) (path : List Cell) :
    (match path.getLast? with
      | some c => gridVal grid c
      | none => (none : Option Nat)) = some (maxDigitOf grid) ↔
      specEndsOnMax grid path := by
  cases h : path.getLast? with
  | none => simp [specEndsOnMax, h]
  | some c => simp [specEndsOnMax, h]

/-- Evaluation of `validatePath` when the length check fails. -/
theorem validatePath_fail1 (grid : Grid) (path : List Cell)
    (h : ¬ path.length = grid.length * grid.length) :
    validatePath grid path = ⟨false, "Path must visit every cell once"⟩ := by
  simp only [validatePath]
  rw [if_pos h]

/-- Evaluation of `validatePath` when only the uniqueness check fails. -/
theorem validatePath_fail2 (grid : Grid) (path : List Cell)
    (h1 : path.length = grid.length * grid.length) (h2 : ¬ path.Nodup) :
    validatePath grid path = ⟨false, "Path visits a cell more than once"⟩ := by
  simp only [validatePath]
  rw [if_neg (not_not_intro h1), if_pos (fun he => h2 ((dedup_length_iff path).1 he))]

/-- Evaluation of `validatePath` when only the adjacency check fails. -/
theorem validatePath_fail3 (grid : Grid) (path : List Cell)
    (h1 : path.length = grid.length * grid.length) (h2 : path.Nodup)
    (h3 : ¬ chainAdjacent path) :
    validatePath grid path = ⟨false, "Non-adjacent cells in path"⟩ := by
  simp only [validatePath]
  rw [if_neg (not_not_intro h1),
    if_neg (not_not_intro ((dedup_length_iff path).2 h2)),
    if_pos (fun hb => h3 ((pairwiseAdjacentB_iff path).1 hb))]

/-- Evaluation of `validatePath` when the first three checks pass and the
digit loop fails. -/
theorem validatePath_fail4 (grid : Grid) (path : List Cell)
    (h1 : path.length = grid.length * grid.length) (h2 : path.Nodup)
    (h3 : chainAdjacent path) (r : String)
    (hcd : checkDigits grid path (maxDigitOf grid - 1) 1 = some r) :
    validatePath grid path = ⟨false, r⟩ := by
  simp only [validatePath]
  rw [if_neg (not_not_intro h1),
    if_neg (not_not_intro ((dedup_length_iff path).2 h2)),
    if_neg (not_not_intro ((pairwiseAdjacentB_iff path).2 h3))]
  simp only [hcd]

/-- Evaluation of `validatePath` when the first four checks pass. -/
theorem validatePath_after4 (grid : Grid) (path : List Cell)
    (h1 : path.length = grid.length * grid.length) (h2 : path.Nodup)
    (h3 : chainAdjacent path)
    (hcd : checkDigits grid path (maxDigitOf grid - 1) 1 = none) :
    validatePath grid path =
      if (match path.getLast? with
          | some c => gridVal grid c
          | none => (none : Option Nat)) = some (maxDigitOf grid)
      then ⟨true, "Valid path"⟩
      else ⟨false, "Path must end on " ++ toString (maxDigitOf grid)⟩ := by
  simp only [validatePath]
  rw [if_neg (not_not_intro h1),
    if_neg (not_not_intro ((dedup_length_iff path).2 h2)),
    if_neg (not_not_intro ((pairwiseAdjacentB_iff path).2 h3))]
  simp only [hcd]
  by_cases h5 : (match path.getLast? with
      | some c => gridVal grid c
      | none => (none : Option Nat)) = some (maxDigitOf grid)
  · rw [if_neg (not_not_intro h5), if_pos h5]
  · rw [if_pos h5, if_neg h5]

/-- C3: `validatePath` checks its five conditions in order, short-circuiting
on the first failure with the corresponding reason, and returns `ok = true`
exactly when all five hold: (1) full `N²` length, (2) all cells distinct,
(3) consecutive cells 4-adjacent, (4) each digit `d` up to `maxDigit - 1`
occurs (with `d + 1`) and sits strictly before `d + 1` on the path, (5) the
last cell carries the maximum digit. -/
theorem c3_validatePath_five_checks :
    ∀ (grid : Grid) (path : List Cell),
      ((validatePath grid path).ok = true ↔
        (path.length = grid.length * grid.length ∧ path.Nodup ∧ chainAdjacent path ∧
         specDigitsAscending grid path ∧ specEndsOnMax grid path)) ∧
      (¬ path.length = grid.length * grid.length →
        (validatePath grid path).reason = "Path must visit every cell once") ∧
      (path.length = grid.length * grid.length → ¬ path.Nodup →
        (validatePath grid path).reason = "Path visits a cell more than once") ∧
      (path.length = grid.length * grid.length → path.Nodup → ¬ chainAdjacent path →
        (validatePath grid path).reason = "Non-adjacent cells in path") ∧
      (path.length = grid.length * grid.length → path.Nodup → chainAdjacent path →
        ¬ specDigitsAscending grid path →
        (validatePath grid path).reason = "Missing numbered cells in path" ∨
        (validatePath grid path).reason =
          "Digits are not in ascending order along the path") ∧
      (path.length = grid.length * grid.length → path.Nodup → chainAdjacent path →
        specDigitsAscending grid path → ¬ specEndsOnMax grid path →
        (validatePath grid path).reason =
          "Path must end on " ++ toString (maxDigitOf grid)) := by
  intro grid path
  by_cases h1 : path.length = grid.length * grid.length
  case neg =>
    rw [validatePath_fail1 grid path h1]
    exact ⟨by simp [h1], fun _ => rfl, fun hc => absurd hc h1, fun hc => absurd hc h1,
      fun hc => absurd hc h1, fun hc => absurd hc h1⟩
  case pos =>
    by_cases h2 : path.Nodup
    case neg =>
      rw [validatePath_fail2 grid path h1 h2]
      exact ⟨by simp [h2], fun hc => absurd h1 hc, fun _ _ => rfl,
        fun _ hc => absurd hc h2, fun _ hc => absurd hc h2, fun _ hc => absurd hc h2⟩
    case pos =>
      by_cases h3 : chainAdjacent path
      case neg =>
        rw [validatePath_fail3 grid path h1 h2 h3]
        exact ⟨by simp [h3], fun hc => absurd h1 hc, fun _ hc => absurd h2 hc,
          fun _ _ _ => rfl, fun _ _ hc => absurd hc h3, fun _ _ hc => absurd hc h3⟩
      case pos =>
        cases hcd : checkDigits grid path (maxDigitOf grid - 1) 1 with
        | some r =>
          have h4 : ¬ specDigitsAscending grid path := by
            rw [specAsc_iff_checkDigits, hcd]
            simp
          rw [validatePath_fail4 grid path h1 h2 h3 r hcd]
          refine ⟨by simp [h4], fun hc => absurd h1 hc, fun _ hc => absurd h2 hc,
            fun _ _ hc => absurd h3 hc, fun _ _ _ _ => ?_, fun _ _ _ hc => absurd hc h4⟩
          exact checkDigits_reasons grid path (maxDigitOf grid - 1) 1 r hcd
        | none =>
          have h4 : specDigitsAscending grid path := by
            rw [specAsc_iff_checkDigits, hcd]
          rw [validatePath_after4 grid path h1 h2 h3 hcd]
          by_cases h5 : specEndsOnMax grid path
          case pos =>
            rw [if_pos ((endsOnMax_iff grid path).2 h5)]
            exact ⟨by simp [h1, h2, h3, h4, h5], fun hc => absurd h1 hc,
              fun _ hc => absurd h2 hc, fun _ _ hc => absurd h3 hc,
              fun _ _ _ hc => absurd h4 hc, fun _ _ _ _ hc => absurd h5 hc⟩
          case neg =>
            rw [if_neg (fun hm => h5 ((endsOnMax_iff grid path).1 hm))]
            exact ⟨by simp [h5], fun hc => absurd h1 hc, fun _ hc => absurd h2 hc,
              fun _ _ hc => absurd h3 hc, fun _ _ _ hc => absurd h4 hc,
              fun _ _ _ _ _ => rfl⟩

/-- Witness for C3: a concrete 2×2 grid and full path satisfying all five
conditions is accepted. -/
theorem c3_witness :
    (validatePath [[some 1, some 4], [some 2, some 3]]
      [⟨0, 0⟩, ⟨1, 0⟩, ⟨1, 1⟩, ⟨0, 1⟩]).ok = true := by
  apply (c3_validatePath_five_checks [[some 1, some 4], [some 2, some 3]]
    [⟨0, 0⟩, ⟨1, 0⟩, ⟨1, 1⟩, ⟨0, 1⟩]).1.mpr
  refine ⟨by decide, by decide, ?_, ?_, ?_⟩
  · rw [← pairwiseAdjacentB_iff]
    decide
  · intro d hd1 hd2
    have hmax : maxDigitOf [[some 1, some 4], [some 2, some 3]] = 4 := by decide
    rw [hmax] at hd2
    interval_cases d
    · exact ⟨⟨⟨0, 0⟩, by decide⟩, ⟨⟨1, 0⟩, by decide⟩, 0, 1, by decide, by decide, by decide⟩
    · exact ⟨⟨⟨1, 0⟩, by decide⟩, ⟨⟨1, 1⟩, by decide⟩, 1, 2, by decide, by decide, by decide⟩
    · exact ⟨⟨⟨1, 1⟩, by decide⟩, ⟨⟨0, 1⟩, by decide⟩, 2, 3, by decide, by decide, by decide⟩
  · exact ⟨⟨0, 1⟩, by decide, by decide⟩

/-- `isInside` agrees with `cellInBounds` at the current grid size. -/
theorem isInside_eq_true_iff (st : EngineState) (r c : Int) :
    isInside st r c = true ↔ cellInBounds st.grid.length ⟨r, c⟩ := by
  simp [isInside, cellInBounds, and_assoc]

/-- A 4-adjacent chain stays a chain after dropping its last cell. -/
theorem chainAdjacent_dropLast (p : List Cell) (h : chainAdjacent p) :
    chainAdjacent p.dropLast := by
  by_cases hnil : p = []
  · subst hnil; simp [chainAdjacent]
  · have hsplit := List.dropLast_append_getLast hnil
    rw [chainAdjacent] at h ⊢
    rw [← hsplit] at h
    exact (List.chain'_append.1 h).1

/-- A snapshot drawn from the history of an invariant-satisfying state: the
current path inherits the snapshot properties whenever it is non-empty. -/
theorem engInv_path_props (size : Nat) (st : EngineState) (hInv : EngInv size st)
    (hne : st.path ≠ []) :
    chainAdjacent st.path ∧ ∀ x ∈ st.path, cellInBounds size x := by
  obtain ⟨_, _, g3, g4, g5⟩ := hInv
  have hh : st.history ≠ [] := fun he => hne (g3.1 he)
  have hmem : st.path ∈ st.history := List.mem_of_getLast?_eq_some (g4 hh)
  exact ⟨(g5 _ hmem).2.1, (g5 _ hmem).2.2⟩

/-- `startPathAt` preserves the engine invariant. -/
theorem engInv_startPathAt (size : Nat) (st : EngineState) (r c : Int)
    (hInv : EngInv size st) : EngInv size (startPathAt st r c) := by
  simp only [startPathAt]
  split_ifs with hs hin hone
  · exact hInv
  · obtain ⟨g1, g2, g3, g4, g5⟩ := hInv
    exact ⟨g1, by simp, g3, g4, g5⟩
  · obtain ⟨g1, g2, g3, g4, g5⟩ := hInv
    have hstarted : st.started = true := by
      cases hb : st.started
      · exact absurd hb hs
      · rfl
    have hbounds : cellInBounds size ⟨r, c⟩ := by
      have := (isInside_eq_true_iff st r c).1 hin
      rwa [g1] at this
    refine ⟨g1, fun _ => hstarted, by simp, fun _ => List.getLast?_concat _, ?_⟩
    intro h hh
    rcases List.mem_append.1 hh with h' | h'
    · exact g5 h h'
    · have : h = [⟨r, c⟩] := by simpa using h'
      subst this
      refine ⟨by simp, by simp [chainAdjacent], ?_⟩
      intro x hx
      have : x = ⟨r, c⟩ := by simpa using hx
      subst this
      exact hbounds
  · exact hInv

/-- `endPath` preserves the engine invariant. -/
theorem engInv_endPath (size : Nat) (st : EngineState) (hInv : EngInv size st) :
    EngInv size (endPath st) := by
  obtain ⟨g1, g2, g3, g4, g5⟩ := hInv
  rw [endPath]
  split_ifs with h
  · exact ⟨g1, by simp, g3, g4, g5⟩
  · exact ⟨g1, by simp, g3, g4, g5⟩

/-- `undo` preserves the engine invariant. -/
theorem engInv_undo (size : Nat) (st : EngineState) (hInv : EngInv size st) :
    EngInv size (undo st) := by
  obtain ⟨g1, g2, g3, g4, g5⟩ := hInv
  rw [undo]
  split_ifs with h
  · exact ⟨g1, g2, by simp, by simp, by simp⟩
  · have hlen : 2 ≤ st.history.length := by omega
    have hne : st.history.dropLast ≠ [] := by
      have : st.history.dropLast.length = st.history.length - 1 := st.history.length_dropLast
      intro he
      rw [he] at this
      simp at this
      omega
    obtain ⟨y, hy⟩ := Option.ne_none_iff_exists'.1
      (fun he => hne (List.getLast?_eq_none_iff.1 he))
    have hymem : y ∈ st.history.dropLast := List.mem_of_getLast?_eq_some hy
    have hymem' : y ∈ st.history := st.history.dropLast_sublist.mem hymem
    have hyprops := g5 y hymem'
    refine ⟨g1, g2, ?_, ?_, ?_⟩
    · simp only [hy]
      constructor
      · intro he; exact absurd he hne
      · intro he
        rw [Option.getD_some] at he
        exact absurd he hyprops.1
    · intro _
      rw [hy, Option.getD_some]
    · intro hh hmem
      exact g5 hh (st.history.dropLast_sublist.mem hmem)

/-- `reset` (aka `clearTransientState`) preserves the engine invariant. -/
theorem engInv_reset (size : Nat) (st : EngineState) (hInv : EngInv size st) :
    EngInv size (reset st) :=
  ⟨hInv.1, hInv.2.1, by simp [reset, clearTransientState],
    by simp [reset, clearTransientState], by simp [reset, clearTransientState]⟩

/-- `resetAll` preserves the engine invariant. -/
theorem engInv_resetAll (size : Nat) (regen : Nat → Grid) (iseed : Nat)
    (hreg : ∀ s, (regen s).length = size) (st : EngineState) :
    EngInv size (resetAll regen iseed st) :=
  ⟨hreg iseed, by simp [resetAll], by simp [resetAll], by simp [resetAll],
    by simp [resetAll]⟩

/-- `startGame` preserves the engine invariant. -/
theorem engInv_startGame (size : Nat) (regen : Nat → Grid) (sstream : Nat → Nat)
    (hreg : ∀ s, (regen s).length = size) (st : EngineState) (hInv : EngInv size st) :
    EngInv size (startGame regen sstream st) := by
  obtain ⟨g1, g2, g3, g4, g5⟩ := hInv
  exact ⟨hreg _, fun _ => rfl, g3, g4, g5⟩

/-- `restartGame` preserves the engine invariant. -/
theorem engInv_restartGame (size : Nat) (regen : Nat → Grid) (sstream : Nat → Nat)
    (hreg : ∀ s, (regen s).length = size) (st : EngineState) :
    EngInv size (restartGame regen sstream st) :=
  ⟨hreg _, fun _ => rfl, by simp [restartGame], by simp [restartGame],
    by simp [restartGame]⟩

/-- `cancelCurrentRunIfIncomplete` preserves the engine invariant. -/
theorem engInv_cancel (size : Nat) (st : EngineState) (hInv : EngInv size st) :
    EngInv size (cancelCurrentRunIfIncomplete st) := by
  rw [cancelCurrentRunIfIncomplete]
  split_ifs with h
  · exact ⟨hInv.1, by simp, by simp, by simp, by simp⟩
  · exact hInv

/-- `onPointerUp` preserves the engine invariant. -/
theorem engInv_onPointerUp (size : Nat) (st : EngineState) (hInv : EngInv size st) :
    EngInv size (onPointerUp st) := by
  rw [onPointerUp]
  split_ifs with h1 h2
  · exact hInv
  · exact engInv_endPath size st hInv
  · exact engInv_cancel size st hInv

/-- `extendPathTo` preserves the engine invariant on every non-throwing
application. -/
theorem engInv_extendPathTo (size : Nat) (st : EngineState) (r c : Int)
    (st' : EngineState) (hInv : EngInv size st)
    (h : extendPathTo st r c = some st') : EngInv size st' := by
  obtain ⟨g1, g2, g3, g4, g5⟩ := hInv
  simp only [extendPathTo] at h
  by_cases hs : st.started = false
  · rw [if_pos hs] at h
    obtain rfl := Option.some.inj h
    exact ⟨g1, g2, g3, g4, g5⟩
  rw [if_neg hs] at h
  by_cases hin0 : ¬ isInside st r c
  · rw [if_pos hin0] at h
    obtain rfl := Option.some.inj h
    exact ⟨g1, g2, g3, g4, g5⟩
  rw [if_neg hin0] at h
  have hin : isInside st r c = true := not_not.1 hin0
  by_cases hdr : st.isDrawing = false
  · rw [if_pos hdr] at h
    obtain rfl := Option.some.inj h
    exact ⟨g1, g2, g3, g4, g5⟩
  rw [if_neg hdr] at h
  cases hl : st.path.getLast? with
  | none =>
    rw [hl] at h
    exact absurd h (by simp)
  | some last =>
    simp only [hl] at h
    have hpne : st.path ≠ [] := by
      intro he0
      rw [he0] at hl
      simp at hl
    have hh : st.history ≠ [] := fun he => hpne (g3.1 he)
    have hmemh : st.path ∈ st.history := List.mem_of_getLast?_eq_some (g4 hh)
    have hprops := g5 _ hmemh
    have hboundsrc : cellInBounds size ⟨r, c⟩ := by
      have := (isInside_eq_true_iff st r c).1 hin
      rwa [g1] at this
    by_cases he : last = ⟨r, c⟩
    · rw [if_pos he] at h
      obtain rfl := Option.some.inj h
      exact ⟨g1, g2, g3, g4, g5⟩
    rw [if_neg he] at h
    by_cases hadj0 : ¬ isAdjacent last ⟨r, c⟩
    · rw [if_pos hadj0] at h
      obtain rfl := Option.some.inj h
      exact ⟨g1, g2, g3, g4, g5⟩
    rw [if_neg hadj0] at h
    have hadj : isAdjacent last ⟨r, c⟩ = true := not_not.1 hadj0
    by_cases hbt : 2 ≤ st.path.length ∧ st.path.getD (st.path.length - 2) ⟨0, 0⟩ = ⟨r, c⟩
    · rw [if_pos hbt] at h
      obtain rfl := Option.some.inj h
      have hdlne : st.path.dropLast ≠ [] := by
        have hlen : st.path.dropLast.length = st.path.length - 1 := st.path.length_dropLast
        intro hcon
        rw [hcon] at hlen
        simp at hlen
        omega
      refine ⟨g1, g2, by simp [hdlne], fun _ => List.getLast?_concat _, ?_⟩
      intro hsnap hmem
      rcases List.mem_append.1 hmem with h' | h'
      · exact g5 _ h'
      · have : hsnap = st.path.dropLast := by simpa using h'
        subst this
        exact ⟨hdlne, chainAdjacent_dropLast _ hprops.2.1,
          fun x hx => hprops.2.2 x (st.path.dropLast_sublist.mem hx)⟩
    rw [if_neg hbt] at h
    by_cases hmem : (⟨r, c⟩ : Cell) ∈ st.path
    · rw [if_pos hmem] at h
      obtain rfl := Option.some.inj h
      exact ⟨g1, g2, g3, g4, g5⟩
    rw [if_neg hmem] at h
    have happend : EngInv size
        { st with invalidAt := none, path := st.path ++ [⟨r, c⟩],
                  history := st.history ++ [st.path ++ [⟨r, c⟩]] } := by
      have hchain : chainAdjacent (st.path ++ [⟨r, c⟩]) := by
        rw [chainAdjacent, List.chain'_append]
        refine ⟨hprops.2.1, by simp, ?_⟩
        intro x hx y hy
        rw [hl] at hx
        have hx' : last = x := by simpa using hx
        have hy' : (⟨r, c⟩ : Cell) = y := by simpa using hy
        subst hx'
        subst hy'
        exact hadj
      refine ⟨g1, g2, by simp, fun _ => List.getLast?_concat _, ?_⟩
      intro hsnap hmem'
      rcases List.mem_append.1 hmem' with h' | h'
      · exact g5 _ h'
      · have : hsnap = st.path ++ [⟨r, c⟩] := by simpa using h'
        subst this
        refine ⟨by simp, hchain, ?_⟩
        intro x hx
        rcases List.mem_append.1 hx with h'' | h''
        · exact hprops.2.2 x h''
        · have : x = ⟨r, c⟩ := by simpa using h''
          subst this
          exact hboundsrc
    cases hv : gridVal st.grid ⟨r, c⟩ with
    | some v =>
      simp only [hv] at h
      by_cases hne : v ≠ nextRequiredDigitFromPath st.grid st.path
      · rw [if_pos hne] at h
        obtain rfl := Option.some.inj h
        exact ⟨g1, g2, g3, g4, g5⟩
      · rw [if_neg hne] at h
        obtain rfl := Option.some.inj h
        exact happend
    | none =>
      simp only [hv] at h
      obtain rfl := Option.some.inj h
      exact happend

/-- The mount state satisfies the engine invariant. -/
theorem engInv_init (size : Nat) (regen : Nat → Grid) (iseed : Nat)
    (hreg : ∀ s, (regen s).length = size) :
    EngInv size (initState regen iseed) :=
  ⟨hreg iseed, by simp [initState], by simp [initState], by simp [initState],
    by simp [initState]⟩

/-- Every engine step preserves the invariant. -/
theorem engInv_step (size : Nat) (regen : Nat → Grid) (sstream : Nat → Nat)
    (iseed : Nat) (hreg : ∀ s, (regen s).length = size) (st st' : EngineState)
    (hInv : EngInv size st) (hstep : EngStep regen sstream iseed st st') :
    EngInv size st' := by
  obtain ⟨e, he⟩ := hstep
  cases e with
  | press r c =>
    obtain rfl := Option.some.inj he
    exact engInv_startPathAt size st r c hInv
  | dragEnter r c => exact engInv_extendPathTo size st r c st' hInv he
  | release =>
    obtain rfl := Option.some.inj he
    exact engInv_onPointerUp size st hInv
  | undoEv =>
    obtain rfl := Option.some.inj he
    exact engInv_undo size st hInv
  | resetEv =>
    obtain rfl := Option.some.inj he
    exact engInv_reset size st hInv
  | resetAllEv =>
    obtain rfl := Option.some.inj he
    exact engInv_resetAll size regen iseed hreg st
  | startEv =>
    obtain rfl := Option.some.inj he
    exact engInv_startGame size regen sstream hreg st hInv
  | restartEv =>
    obtain rfl := Option.some.inj he
    exact engInv_restartGame size regen sstream hreg st

/-- Every reachable engine state satisfies the invariant. -/
theorem engInv_reachable (size : Nat) (regen : Nat → Grid) (sstream : Nat → Nat)
    (iseed : Nat) (hreg : ∀ s, (regen s).length = size) (st : EngineState)
    (hr : Reachable regen sstream iseed st) : EngInv size st := by
  induction hr with
  | refl => exact engInv_init size regen iseed hreg
  | tail _ hstep ih => exact engInv_step size regen sstream iseed hreg _ _ ih hstep

/-- C8: in every state reachable by any sequence of press, drag-enter,
release, undo, reset, reset-all, start and restart events, the last history
snapshot equals the current path whenever the history is non-empty, and the
history is empty exactly when the path is empty. -/
theorem c8_history_mirrors_path (size : Nat) (regen : Nat → Grid)
    (sstream : Nat → Nat) (iseed : Nat) (hreg : ∀ s, (regen s).length = size)
    (st : EngineState) (hr : Reachable regen sstream iseed st) :
    (st.history = [] ↔ st.path = []) ∧
    (st.history ≠ [] → st.history.getLast? = some st.path) := by
  have h := engInv_reachable size regen sstream iseed hreg st hr
  exact ⟨h.2.2.1, h.2.2.2.1⟩

/-- Witness for C8 at a concrete reachable state (the mount state of the
1-cell machine). -/
theorem c8_witness :
    ((initState regen1 0).history = [] ↔ (initState regen1 0).path = []) ∧
    ((initState regen1 0).history ≠ [] →
      (initState regen1 0).history.getLast? = some (initState regen1 0).path) :=
  c8_history_mirrors_path 2 regen1 sstream0 0 (fun _ => rfl) (initState regen1 0)
    Relation.ReflTransGen.refl

/-- 4-adjacency is symmetric. -/
theorem isAdjacent_symm (a b : Cell) (h : isAdjacent a b = true) :
    isAdjacent b a = true := by
  simp only [isAdjacent, beq_iff_eq] at h ⊢
  omega

/-- 4-adjacent cells are distinct. -/
theorem isAdjacent_ne (a b : Cell) (h : isAdjacent a b = true) : a ≠ b := by
  intro he
  subst he
  simp [isAdjacent] at h

/-- C5: in every reachable drawing state with at least two drawn cells, a
drag-enter on the second-to-last cell pops exactly one cell, clears the
invalid marker without setting any rejection reason (the state equation
keeps `validation` untouched), and pushes a history snapshot different from
the current top (no duplicate entry). -/
theorem c5_backtrack_pops_one (size : Nat) (regen : Nat → Grid)
    (sstream : Nat → Nat) (iseed : Nat) (hreg : ∀ s, (regen s).length = size)
    (st : EngineState) (hr : Reachable regen sstream iseed st)
    (hdraw : st.isDrawing = true) (hlen : 2 ≤ st.path.length) (r c : Int)
    (htarget : st.path.getD (st.path.length - 2) ⟨0, 0⟩ = ⟨r, c⟩) :
    extendPathTo st r c =
      some { st with invalidAt := none, path := st.path.dropLast,
                     history := st.history ++ [st.path.dropLast] } ∧
    st.history.getLast? ≠ some st.path.dropLast := by
  obtain ⟨g1, g2, g3, g4, g5⟩ := engInv_reachable size regen sstream iseed hreg st hr
  have hstarted : st.started = true := g2 hdraw
  have hpne : st.path ≠ [] := by
    intro he
    rw [he] at hlen
    simp at hlen
  have hh : st.history ≠ [] := fun he => hpne (g3.1 he)
  have hmemh : st.path ∈ st.history := List.mem_of_getLast?_eq_some (g4 hh)
  have hchain := (g5 _ hmemh).2.1
  have hbounds := (g5 _ hmemh).2.2
  have hidx : st.path.length - 2 < st.path.length := by omega
  have hidx1 : st.path.length - 2 + 1 = st.path.length - 1 := by omega
  have hprev : st.path[st.path.length - 2] = ⟨r, c⟩ := by
    rw [List.getD_eq_getElem?_getD, List.getElem?_eq_getElem hidx] at htarget
    simpa using htarget
  obtain ⟨last, hl⟩ : ∃ y, st.path.getLast? = some y := by
    cases hcl : st.path.getLast? with
    | none => exact absurd (List.getLast?_eq_none_iff.1 hcl) hpne
    | some y => exact ⟨y, rfl⟩
  have hlast : st.path[st.path.length - 1] = last := by
    rw [List.getLast?_eq_getElem?,
      List.getElem?_eq_getElem (by omega : st.path.length - 1 < st.path.length)] at hl
    simpa using hl
  have hadjpl : isAdjacent (⟨r, c⟩ : Cell) last = true := by
    rw [chainAdjacent, List.chain'_iff_get] at hchain
    have := hchain (st.path.length - 2) (by omega)
    rw [List.get_eq_getElem, List.get_eq_getElem] at this
    simp only [hprev, hidx1] at this
    rwa [hlast] at this
  have hadj : isAdjacent last ⟨r, c⟩ = true := isAdjacent_symm _ _ hadjpl
  have hne_last : last ≠ (⟨r, c⟩ : Cell) := (isAdjacent_ne _ _ hadjpl).symm
  have hinside : isInside st r c = true := by
    rw [isInside_eq_true_iff, g1]
    have : (⟨r, c⟩ : Cell) ∈ st.path := by
      rw [← hprev]
      exact st.path.getElem_mem hidx
    exact hbounds _ this
  constructor
  · simp only [extendPathTo]
    rw [if_neg (by simp [hstarted]), if_neg (not_not_intro hinside),
      if_neg (by simp [hdraw])]
    simp only [hl]
    rw [if_neg hne_last, if_neg (not_not_intro hadj),
      if_pos (⟨hlen, htarget⟩ :
        2 ≤ st.path.length ∧ st.path.getD (st.path.length - 2) ⟨0, 0⟩ = ⟨r, c⟩)]
  · intro hcon
    rw [g4 hh] at hcon
    have := congrArg List.length (Option.some.inj hcon)
    rw [List.length_dropLast] at this
    omega

/-- The two-cell drawing state `c5State` is reachable: start, press (0,0),
drag-enter (0,1). -/
theorem reachable_c5State : Reachable regen1 sstream0 0 c5State :=
  Relation.ReflTransGen.tail
    (Relation.ReflTransGen.tail
      (Relation.ReflTransGen.tail Relation.ReflTransGen.refl
        (⟨GEvent.startEv, by decide⟩ :
          EngStep regen1 sstream0 0 (initState regen1 0)
            { gridSeed := 0, grid := [[some 1, none], [none, none]], path := [],
              history := [], isDrawing := false, completed := false,
              validation := ⟨false, ""⟩, invalidAt := none, started := true, rk := 2 }))
      (⟨GEvent.press 0 0, by decide⟩ :
        EngStep regen1 sstream0 0
          { gridSeed := 0, grid := [[some 1, none], [none, none]], path := [],
            history := [], isDrawing := false, completed := false,
            validation := ⟨false, ""⟩, invalidAt := none, started := true, rk := 2 }
          { gridSeed := 0, grid := [[some 1, none], [none, none]], path := [⟨0, 0⟩],
            history := [[⟨0, 0⟩]], isDrawing := true, completed := false,
            validation := ⟨false, ""⟩, invalidAt := none, started := true, rk := 2 }))
    (⟨GEvent.dragEnter 0 1, by decide⟩ :
      EngStep regen1 sstream0 0
        { gridSeed := 0, grid := [[some 1, none], [none, none]], path := [⟨0, 0⟩],
          history := [[⟨0, 0⟩]], isDrawing := true, completed := false,
          validation := ⟨false, ""⟩, invalidAt := none, started := true, rk := 2 }
        c5State)

/-- Witness for C5: backtracking from (0,1) onto (0,0) in the reachable
state `c5State`. -/
theorem c5_witness :
    extendPathTo c5State 0 0 =
      some { c5State with invalidAt := none, path := c5State.path.dropLast,
                          history := c5State.history ++ [c5State.path.dropLast] } ∧
    c5State.history.getLast? ≠ some c5State.path.dropLast :=
  c5_backtrack_pops_one 2 regen1 sstream0 0 (fun _ => rfl) c5State reachable_c5State
    (by decide) (by decide) 0 0 (by decide)

/-- `inBoundsB` agrees with `cellInBounds`. -/
theorem inBoundsB_iff (size : Nat) (r c : Int) :
    inBoundsB size r c = true ↔ cellInBounds size ⟨r, c⟩ := by
  simp [inBoundsB, cellInBounds, and_assoc]

/-- `Math.floor(rng() * m)` is below `m` for positive `m`. -/
theorem floorMul_lt (k m : Nat) (h : 0 < m) : floorMul k m < m := by
  rw [floorMul]
  apply Nat.div_lt_of_lt_mul
  have hk : u32 k < 4294967296 := Nat.mod_lt _ (by omega)
  calc u32 k * m = m * u32 k := Nat.mul_comm _ _
    _ < m * 4294967296 := mul_lt_mul_of_pos_left hk h
    _ = 4294967296 * m := Nat.mul_comm _ _

/-- Insertion keeps only elements of the inserted list. -/
theorem mem_insSorted {α : Type} (key : α → Nat) (a x : α) :
    ∀ l : List α, x ∈ insSorted key a l → x = a ∨ x ∈ l := by
  intro l
  induction l with
  | nil => intro h; simpa [insSorted] using h
  | cons y ys ih =>
    intro h
    rw [insSorted] at h
    split_ifs at h
    · rcases List.mem_cons.1 h with h | h
      · exact Or.inl h
      · exact Or.inr h
    · rcases List.mem_cons.1 h with h | h
      · exact Or.inr (by simp [h])
      · rcases ih h with h' | h'
        · exact Or.inl h'
        · exact Or.inr (List.mem_cons_of_mem _ h')

/-- The stable sort keeps only elements of its input. -/
theorem mem_stableSortBy {α : Type} (key : α → Nat) (x : α) :
    ∀ l : List α, x ∈ stableSortBy key l → x ∈ l := by
  intro l
  induction l with
  | nil => intro h; simpa [stableSortBy] using h
  | cons y ys ih =>
    intro h
    rw [stableSortBy] at h
    rcases mem_insSorted key y x _ h with h' | h'
    · simp [h']
    · exact List.mem_cons_of_mem _ (ih h')

/-- A swap keeps only elements of its input. -/
theorem mem_swapIdx {α : Type} (l : List α) (i j : Nat) (x : α)
    (h : x ∈ swapIdx l i j) : x ∈ l := by
  rw [swapIdx] at h
  cases hi : l[i]? with
  | none => rw [hi] at h; exact h
  | some a =>
    cases hj : l[j]? with
    | none => rw [hi, hj] at h; exact h
    | some b =>
      rw [hi, hj] at h
      rcases List.mem_or_eq_of_mem_set h with h' | h'
      · rcases List.mem_or_eq_of_mem_set h' with h'' | h''
        · exact h''
        · subst h''; exact List.getElem?_mem hj
      · subst h'; exact List.getElem?_mem hi

/-- The Fisher-Yates loop keeps only elements of its input. -/
theorem mem_fyLoop {α : Type} (g : Nat → Nat) :
    ∀ (n : Nat) (l : List α) (k : Nat) (x : α), x ∈ (fyLoop g l k n).1 → x ∈ l := by
  intro n
  induction n with
  | zero => intro l k x h; exact h
  | succ n ih =>
    intro l k x h
    rw [fyLoop] at h
    exact mem_swapIdx _ _ _ _ (ih _ _ _ h)

/-- Every direction of `DIRS` is a unit step. -/
theorem dirs_unit : ∀ d ∈ DIRS, d.dr.natAbs + d.dc.natAbs = 1 := by decide

/-- `shuffledNeighbors` returns directions of `DIRS` only. -/
theorem mem_shuffledNeighbors (g : Nat → Nat) (size : Nat) (visited : List Cell)
    (r c : Int) (depth k : Nat) (d : Dir)
    (h : d ∈ (shuffledNeighbors g size visited r c depth k).1) : d ∈ DIRS := by
  rw [shuffledNeighbors] at h
  have h1 := mem_stableSortBy _ _ _ h
  have h2 : d ∈ (fyLoop g DIRS (orientationBias g depth k).2 (DIRS.length - 1)).1 := by
    rcases hbias : (orientationBias g depth k).1 with _ | _ | _ <;>
      rw [hbias] at h1
    · exact mem_stableSortBy _ _ _ h1
    · exact mem_stableSortBy _ _ _ h1
    · exact h1
  exact mem_fyLoop g _ _ _ _ h2

/-- `maybeSwap` returns elements of its input only. -/
theorem mem_maybeSwap (g : Nat → Nat) (l : List Dir) (k : Nat) (d : Dir)
    (h : d ∈ (maybeSwap g l k).1) : d ∈ l := by
  rw [maybeSwap] at h
  split_ifs at h
  · exact mem_swapIdx _ _ _ _ h
  · exact h

/-- A unit step from a cell is 4-adjacent to it. -/
theorem isAdjacent_step (r c : Int) (d : Dir) (h : d.dr.natAbs + d.dc.natAbs = 1) :
    isAdjacent ⟨r, c⟩ ⟨r + d.dr, c + d.dc⟩ = true := by
  simp only [isAdjacent, beq_iff_eq]
  omega

/-- `contains` on the visited list is membership. -/
theorem contains_iff_mem (l : List Cell) (x : Cell) : l.contains x = true ↔ x ∈ l := by
  simp [List.contains_eq_any_beq, List.any_eq_true]

/-- The search invariant only depends on the `visited` and `path` fields. -/
theorem searchInv_congr (size : Nat) (s t : SearchSt) (hv : t.visited = s.visited)
    (hp : t.path = s.path) (h : SearchInv size s) : SearchInv size t := by
  rw [SearchInv, hv, hp]
  exact h

/-- Specification of the neighbour loop of `dfs`: given that the recursive
call `go` restores the state on failure and extends the path with an
invariant-preserving adjacent chain on success, the loop does the same (on
success the path of the entry state is extended). -/
theorem tryDirs_spec (size : Nat) (go : SearchSt → Int → Int → Bool × SearchSt)
    (r c : Int)
    (hgo : ∀ (s : SearchSt) (nr nc : Int),
      SearchInv size s →
      cellInBounds size ⟨nr, nc⟩ →
      (⟨nr, nc⟩ : Cell) ∉ s.visited →
      (s.path = [] ∨ ∃ lc, s.path.getLast? = some lc ∧ isAdjacent lc ⟨nr, nc⟩ = true) →
      ((go s nr nc).1 = false →
        (go s nr nc).2.visited = s.visited ∧ (go s nr nc).2.path = s.path) ∧
      ((go s nr nc).1 = true → SearchInv size (go s nr nc).2 ∧
        ∃ ext, (go s nr nc).2.path = s.path ++ ⟨nr, nc⟩ :: ext)) :
    ∀ (ds : List Dir) (st : SearchSt),
      (∀ d ∈ ds, d.dr.natAbs + d.dc.natAbs = 1) →
      SearchInv size st →
      st.path.getLast? = some ⟨r, c⟩ →
      ((tryDirs go size r c ds st).1 = false →
        (tryDirs go size r c ds st).2.visited = st.visited ∧
        (tryDirs go size r c ds st).2.path = st.path) ∧
      ((tryDirs go size r c ds st).1 = true →
        SearchInv size (tryDirs go size r c ds st).2 ∧
        ∃ ext, (tryDirs go size r c ds st).2.path = st.path ++ ext) := by
  intro ds
  induction ds with
  | nil =>
    intro st _ _ _
    exact ⟨fun _ => ⟨rfl, rfl⟩, fun hcon => by simp [tryDirs] at hcon⟩
  | cons d ds ih =>
    intro st hds hInv hlast
    have hdunit : d.dr.natAbs + d.dc.natAbs = 1 := hds d (List.mem_cons_self d ds)
    have hds' : ∀ d' ∈ ds, d'.dr.natAbs + d'.dc.natAbs = 1 :=
      fun d' hd' => hds d' (List.mem_cons_of_mem _ hd')
    simp only [tryDirs]
    by_cases hskip : ¬ inBoundsB size (r + d.dr) (c + d.dc)
        ∨ st.visited.contains ⟨r + d.dr, c + d.dc⟩
    · rw [if_pos hskip]
      exact ih st hds' hInv hlast
    · rw [if_neg hskip]
      push_neg at hskip
      have hb : cellInBounds size ⟨r + d.dr, c + d.dc⟩ :=
        (inBoundsB_iff size _ _).1 hskip.1
      have hnv : (⟨r + d.dr, c + d.dc⟩ : Cell) ∉ st.visited := by
        intro hmem
        exact hskip.2 ((contains_iff_mem _ _).2 hmem)
      have hadj : (st.path = [] ∨ ∃ lc, st.path.getLast? = some lc ∧
          isAdjacent lc ⟨r + d.dr, c + d.dc⟩ = true) :=
        Or.inr ⟨⟨r, c⟩, hlast, isAdjacent_step r c d hdunit⟩
      have hg := hgo st (r + d.dr) (c + d.dc) hInv hb hnv hadj
      cases hgo0 : go st (r + d.dr) (c + d.dc) with
      | mk b s' =>
        rw [hgo0] at hg
        cases b with
        | true =>
          simp only [hgo0]
          obtain ⟨hInv', ext, hext⟩ := hg.2 rfl
          exact ⟨fun hcon => by simp at hcon,
            fun _ => ⟨hInv', ⟨⟨r + d.dr, c + d.dc⟩ :: ext, hext⟩⟩⟩
        | false =>
          simp only [hgo0]
          obtain ⟨hvis, hpath⟩ := hg.1 rfl
          have hInv' : SearchInv size s' := searchInv_congr size st s' hvis hpath hInv
          have hlast' : s'.path.getLast? = some ⟨r, c⟩ := by rw [hpath]; exact hlast
          have hrec := ih s' hds' hInv' hlast'
          refine ⟨fun hf => ?_, fun ht => ?_⟩
          · obtain ⟨hv2, hp2⟩ := hrec.1 hf
            exact ⟨hv2.trans hvis, hp2.trans hpath⟩
          · obtain ⟨hI, ext, hext⟩ := hrec.2 ht
            exact ⟨hI, ext, by rw [hext, hpath]⟩

/-- The candidate list of `dfs` consists of unit steps. -/
theorem dfsNeighbors_unit (g : Nat → Nat) (size : Nat) (st1 : SearchSt)
    (r c : Int) (depth : Nat) :
    ∀ d ∈ (dfsNeighbors g size st1 r c depth).1, d.dr.natAbs + d.dc.natAbs = 1 := by
  intro d hd
  rw [dfsNeighbors] at hd
  exact dirs_unit d (mem_shuffledNeighbors g size st1.visited r c depth st1.k d
    (mem_maybeSwap g _ _ d hd))

/-- Marking and pushing a fresh in-bounds cell adjacent to the path's end
preserves the search invariant. -/
theorem searchInv_markPush (size : Nat) (st : SearchSt) (r c : Int)
    (hInv : SearchInv size st) (hb : cellInBounds size ⟨r, c⟩)
    (hnv : (⟨r, c⟩ : Cell) ∉ st.visited)
    (hadj : st.path = [] ∨ ∃ lc, st.path.getLast? = some lc ∧
      isAdjacent lc ⟨r, c⟩ = true) :
    SearchInv size (markPush st r c) := by
  obtain ⟨i1, i2, i3, i4⟩ := hInv
  have hnp : (⟨r, c⟩ : Cell) ∉ st.path := fun hm => hnv ((i1 _).2 hm)
  refine ⟨?_, ?_, ?_, ?_⟩
  · intro x
    simp only [markPush, List.mem_cons, List.mem_append, List.mem_singleton, i1 x]
    tauto
  · show (st.path ++ [(⟨r, c⟩ : Cell)]).Nodup
    rw [List.nodup_append]
    refine ⟨i2, List.nodup_singleton _, ?_⟩
    intro a ha hb'
    have : a = ⟨r, c⟩ := by simpa using hb'
    subst this
    exact hnp ha
  · show chainAdjacent (st.path ++ [(⟨r, c⟩ : Cell)])
    rw [chainAdjacent, List.chain'_append]
    refine ⟨i3, by simp, ?_⟩
    intro x hx y hy
    have hy' : (⟨r, c⟩ : Cell) = y := by simpa using hy
    rcases hadj with hnil | ⟨lc, hl, hadjc⟩
    · rw [hnil] at hx
      simp at hx
    · rw [hl] at hx
      have hx' : lc = x := by simpa using hx
      subst hx'
      subst hy'
      exact hadjc
  · intro x hx
    rcases List.mem_append.1 hx with h' | h'
    · exact i4 x h'
    · have : x = ⟨r, c⟩ := by simpa using h'
      subst this
      exact hb

/-- Full specification of the fuelled `dfs`: on failure the `visited` and
`path` state is restored exactly; on success the invariant holds and the
path has been extended, starting with the cell the call was made on. -/
theorem dfsGo_spec (g : Nat → Nat) (size total : Nat) :
    ∀ (fuel : Nat) (st : SearchSt) (r c : Int) (depth : Nat),
      SearchInv size st →
      cellInBounds size ⟨r, c⟩ →
      (⟨r, c⟩ : Cell) ∉ st.visited →
      (st.path = [] ∨ ∃ lc, st.path.getLast? = some lc ∧
        isAdjacent lc ⟨r, c⟩ = true) →
      ((dfsGo g size total fuel st r c depth).1 = false →
        (dfsGo g size total fuel st r c depth).2.visited = st.visited ∧
        (dfsGo g size total fuel st r c depth).2.path = st.path) ∧
      ((dfsGo g size total fuel st r c depth).1 = true →
        SearchInv size (dfsGo g size total fuel st r c depth).2 ∧
        ∃ ext, (dfsGo g size total fuel st r c depth).2.path
          = st.path ++ ⟨r, c⟩ :: ext) := by
  intro fuel
  induction fuel with
  | zero =>
    intro st r c depth _ _ _ _
    exact ⟨fun _ => ⟨rfl, rfl⟩, fun hcon => by simp [dfsGo] at hcon⟩
  | succ fuel ih =>
    intro st r c depth hInv hb hnv hadj
    have hInv1 : SearchInv size (markPush st r c) :=
      searchInv_markPush size st r c hInv hb hnv hadj
    simp only [dfsGo]
    by_cases hdt : depth = total
    · rw [if_pos hdt]
      exact ⟨fun hcon => by simp at hcon,
        fun _ => ⟨hInv1, ⟨[], by simp [markPush]⟩⟩⟩
    · rw [if_neg hdt]
      cases hmk : dfsNeighbors g size (markPush st r c) r c depth with
      | mk ds k2 =>
        simp only [hmk]
        have hunits : ∀ d ∈ ds, d.dr.natAbs + d.dc.natAbs = 1 := by
          intro d hd
          exact dfsNeighbors_unit g size (markPush st r c) r c depth d
            (by rw [hmk]; exact hd)
        have hInv2 : SearchInv size { markPush st r c with k := k2 } :=
          searchInv_congr size (markPush st r c) _ rfl rfl hInv1
        have hlast2 : ({ markPush st r c with k := k2 } : SearchSt).path.getLast?
            = some ⟨r, c⟩ := by
          show (st.path ++ [(⟨r, c⟩ : Cell)]).getLast? = some ⟨r, c⟩
          exact List.getLast?_concat _
        have hspec := tryDirs_spec size
          (fun s nr nc => dfsGo g size total fuel s nr nc (depth + 1)) r c
          (fun s nr nc hI hB hV hA => ih s nr nc (depth + 1) hI hB hV hA)
          ds { markPush st r c with k := k2 } hunits hInv2 hlast2
        cases htd : tryDirs (fun s nr nc => dfsGo g size total fuel s nr nc (depth + 1))
            size r c ds { markPush st r c with k := k2 } with
        | mk b stR =>
          rw [htd] at hspec
          cases b with
          | true =>
            simp only
            refine ⟨fun hcon => by simp at hcon, fun _ => ?_⟩
            obtain ⟨hI, ext, hext⟩ := hspec.2 rfl
            refine ⟨hI, ext, ?_⟩
            rw [hext]
            show st.path ++ [(⟨r, c⟩ : Cell)] ++ ext = st.path ++ ⟨r, c⟩ :: ext
            rw [List.append_assoc, List.singleton_append]
          | false =>
            simp only
            refine ⟨fun _ => ?_, fun hcon => by simp at hcon⟩
            obtain ⟨hvis, hpath⟩ := hspec.1 rfl
            constructor
            · show (stR.visited.erase ⟨r, c⟩) = st.visited
              rw [hvis]
              show ((⟨r, c⟩ : Cell) :: st.visited).erase ⟨r, c⟩ = st.visited
              exact List.erase_cons_head _ _
            · show stR.path.dropLast = st.path
              rw [hpath]
              show (st.path ++ [(⟨r, c⟩ : Cell)]).dropLast = st.path
              exact List.dropLast_concat

/-- Specification of the retry loop: whatever the attempt count, start cell
(in bounds) and RNG position, a returned path has full length and is a
duplicate-free in-bounds 4-adjacent chain. -/
theorem attemptsLoop_spec (g : Nat → Nat) (size total : Nat) (hsz : 1 ≤ size) :
    ∀ (rem k : Nat) (fs : Option Cell),
      (∀ s0 ∈ fs, cellInBounds size s0) →
      ∀ (p : List Cell) (k' : Nat),
        attemptsLoop g size total rem k fs = (some p, k') →
        p.length = total ∧ p.Nodup ∧ chainAdjacent p ∧
          ∀ x ∈ p, cellInBounds size x := by
  intro rem
  induction rem with
  | zero =>
    intro k fs _ p k' h
    simp [attemptsLoop] at h
  | succ rem ih =>
    intro k fs hfs p k' h
    have hInv0 : SearchInv size ⟨[], [], k⟩ :=
      ⟨by simp, by simp, by simp [chainAdjacent], by simp⟩
    cases fs with
    | some s0 =>
      simp only [attemptsLoop] at h
      have hb0 : cellInBounds size s0 := hfs s0 rfl
      split at h
      next st' hdfs =>
        have hs := dfsGo_spec g size total total ⟨[], [], k⟩ s0.row s0.col 1
          hInv0 hb0 (by simp) (Or.inl rfl)
        rw [hdfs] at hs
        obtain ⟨hI, ext, hext⟩ := hs.2 rfl
        by_cases hlen : st'.path.length = total
        · rw [if_pos hlen] at h
          injection h with h1 h2
          injection h1 with h1
          subst h1
          exact ⟨hlen, hI.2.1, hI.2.2.1, hI.2.2.2⟩
        · rw [if_neg hlen] at h
          exact ih st'.k none (by simp) p k' h
      next st' hdfs =>
        exact ih st'.k none (by simp) p k' h
    | none =>
      simp only [attemptsLoop] at h
      have hb0 : cellInBounds size
          (⟨Int.ofNat (floorMul (g k) size), Int.ofNat (floorMul (g (k + 1)) size)⟩ : Cell) := by
        refine ⟨by simp, ?_, by simp, ?_⟩
        · exact Int.ofNat_lt.2 (floorMul_lt (g k) size hsz)
        · exact Int.ofNat_lt.2 (floorMul_lt (g (k + 1)) size hsz)
      split at h
      next st' hdfs =>
        have hInv0' : SearchInv size ⟨[], [], k + 2⟩ :=
          ⟨by simp, by simp, by simp [chainAdjacent], by simp⟩
        have hs := dfsGo_spec g size total total ⟨[], [], k + 2⟩
          (Int.ofNat (floorMul (g k) size)) (Int.ofNat (floorMul (g (k + 1)) size)) 1
          hInv0' hb0 (by simp) (Or.inl rfl)
        rw [hdfs] at hs
        obtain ⟨hI, ext, hext⟩ := hs.2 rfl
        by_cases hlen : st'.path.length = total
        · rw [if_pos hlen] at h
          injection h with h1 h2
          injection h1 with h1
          subst h1
          exact ⟨hlen, hI.2.1, hI.2.2.1, hI.2.2.2⟩
        · rw [if_neg hlen] at h
          exact ih st'.k none (by simp) p k' h
      next st' hdfs =>
        exact ih st'.k none (by simp) p k' h

/-- Pigeonhole step: a duplicate-free list of `size²` in-bounds cells
contains every cell of the grid exactly once. -/
theorem coversEachOnce_of (size : Nat) (p : List Cell)
    (hlen : p.length = size * size) (hnd : p.Nodup)
    (hb : ∀ x ∈ p, cellInBounds size x) : coversEachOnce size p := by
  refine ⟨hlen, ?_⟩
  have hinj : Function.Injective (fun rc : Nat × Nat => (⟨rc.1, rc.2⟩ : Cell)) := by
    intro a b hab
    simp only [Cell.mk.injEq] at hab
    exact Prod.ext (by exact_mod_cast hab.1) (by exact_mod_cast hab.2)
  have hcard : (((Finset.range size) ×ˢ (Finset.range size)).image
      (fun rc : Nat × Nat => (⟨rc.1, rc.2⟩ : Cell))).card = size * size := by
    rw [Finset.card_image_of_injective _ hinj]
    simp
  have hmemS : ∀ x : Cell, x ∈ ((Finset.range size) ×ˢ (Finset.range size)).image
      (fun rc : Nat × Nat => (⟨rc.1, rc.2⟩ : Cell)) ↔ cellInBounds size x := by
    intro x
    simp only [Finset.mem_image, Finset.mem_product, Finset.mem_range, Prod.exists]
    constructor
    · rintro ⟨a, b, ⟨ha, hb'⟩, rfl⟩
      refine ⟨by simp, ?_, by simp, ?_⟩
      · show (a : Int) < (size : Int)
        exact_mod_cast ha
      · show (b : Int) < (size : Int)
        exact_mod_cast hb'
    · intro hx
      obtain ⟨hx1, hx2, hx3, hx4⟩ := hx
      refine ⟨x.row.toNat, x.col.toNat, ⟨by omega, by omega⟩, ?_⟩
      cases x with
      | mk xr xc =>
        simp only [Cell.mk.injEq]
        constructor
        · exact Int.toNat_of_nonneg hx1
        · exact Int.toNat_of_nonneg hx3
  have hsub : p.toFinset ⊆ ((Finset.range size) ×ˢ (Finset.range size)).image
      (fun rc : Nat × Nat => (⟨rc.1, rc.2⟩ : Cell)) := by
    intro x hx
    rw [hmemS]
    exact hb x (List.mem_toFinset.1 hx)
  have hcard2 : p.toFinset.card = size * size := by
    rw [List.toFinset_card_of_nodup hnd, hlen]
  have heq := Finset.eq_of_subset_of_card_le hsub (by rw [hcard, hcard2])
  intro x hx
  have hmem : x ∈ p := by
    rw [← List.mem_toFinset, heq, hmemS]
    exact hx
  exact List.count_eq_one_of_mem hnd hmem

/-- Occurrence counting across a single `set`. -/
theorem count_set_aux {α : Type} [DecidableEq α] :
    ∀ (l : List α) (i : Nat) (v x : α) (h : i < l.length),
      (l.set i v).count x + (if x = l[i] then 1 else 0)
        = l.count x + (if x = v then 1 else 0) := by
  intro l
  induction l with
  | nil => intro i v x h; simp at h
  | cons a as ih =>
    intro i v x h
    cases i with
    | zero =>
      simp only [List.set_cons_zero, List.getElem_cons_zero, List.count_cons,
        beq_iff_eq]
      by_cases h1 : v = x <;> by_cases h2 : a = x <;>
        simp [h1, h2, eq_comm] <;> omega
    | succ i =>
      simp only [List.set_cons_succ, List.getElem_cons_succ, List.count_cons,
        beq_iff_eq]
      have hlen : i < as.length := by simpa using h
      have hih := ih i v x hlen
      split_ifs at hih ⊢ <;> omega

/-- Setting an index to the value it already holds is the identity. -/
theorem set_of_getElem? {α : Type} (l : List α) (i : Nat) (a : α)
    (h : l[i]? = some a) : l.set i a = l := by
  apply List.ext_getElem?
  intro n
  by_cases hn : i = n
  · subst hn
    rw [List.getElem?_set_self (by
      obtain ⟨hlt, _⟩ := List.getElem?_eq_some_iff.1 h
      exact hlt)]
    exact h.symm
  · rw [List.getElem?_set_ne hn]

/-- A swap is a permutation. -/
theorem swapIdx_perm {α : Type} [DecidableEq α] (l : List α) (i j : Nat) :
    (swapIdx l i j).Perm l := by
  rw [swapIdx]
  cases hi : l[i]? with
  | none => exact List.Perm.refl l
  | some a =>
    cases hj : l[j]? with
    | none => exact List.Perm.refl l
    | some b =>
      obtain ⟨hil, hie⟩ := List.getElem?_eq_some_iff.1 hi
      obtain ⟨hjl, hje⟩ := List.getElem?_eq_some_iff.1 hj
      by_cases hij : i = j
      · subst hij
        show ((l.set i b).set i a).Perm l
        rw [List.set_set]
        have hab : a = b := by rw [hi] at hj; exact Option.some.inj hj
        subst hab
        rw [set_of_getElem? l i a hi]
      · show ((l.set i b).set j a).Perm l
        rw [List.perm_iff_count]
        intro x
        have h1 := count_set_aux l i b x hil
        have h2 := count_set_aux (l.set i b) j a x (by simpa using hjl)
        simp only [List.getElem_set_ne hij] at h2
        simp only [hje] at h2
        simp only [hie] at h1
        split_ifs at h1 h2 <;> omega

/-- The Fisher-Yates loop is a permutation. -/
theorem fyLoop_perm {α : Type} [DecidableEq α] (g : Nat → Nat) :
    ∀ (n : Nat) (l : List α) (k : Nat), (fyLoop g l k n).1.Perm l := by
  intro n
  induction n with
  | zero => intro l k; exact List.Perm.refl l
  | succ n ih =>
    intro l k
    rw [fyLoop]
    exact (ih _ _).trans (swapIdx_perm l (n + 1) (floorMul (g k) (n + 2)))

/-- Length of the fallback sweep: one block of `size` cells per column entry. -/
theorem fbBlocks_length (size : Nat) : ∀ ps : List (Nat × Nat),
    (ps.flatMap (fun ic =>
      (if ic.1 % 2 = 0 then List.range size else (List.range size).reverse).map
        (fun r => (⟨Int.ofNat r, Int.ofNat ic.2⟩ : Cell)))).length
      = ps.length * size := by
  intro ps
  induction ps with
  | nil => simp
  | cons p ps ih =>
    rw [List.flatMap_cons, List.length_append, ih, List.length_map]
    have hb : (if p.1 % 2 = 0 then List.range size
        else (List.range size).reverse).length = size := by
      split_ifs <;> simp
    rw [hb, List.length_cons, Nat.succ_mul]
    omega

/-- The cell constructor for a fixed column is injective in the row. -/
theorem fbCell_inj (c : Nat) :
    Function.Injective (fun r : Nat => (⟨Int.ofNat r, Int.ofNat c⟩ : Cell)) := by
  intro x y h
  simp only [Cell.mk.injEq] at h
  exact Int.ofNat_inj.1 h.1

/-- The fallback blocks are duplicate-free when the column entries are. -/
theorem fbBlocks_nodup (size : Nat) : ∀ ps : List (Nat × Nat),
    (ps.map Prod.snd).Nodup →
    (ps.flatMap (fun ic =>
      (if ic.1 % 2 = 0 then List.range size else (List.range size).reverse).map
        (fun r => (⟨Int.ofNat r, Int.ofNat ic.2⟩ : Cell)))).Nodup := by
  intro ps
  induction ps with
  | nil => intro _; simp
  | cons p ps ih =>
    intro hnd
    rw [List.map_cons, List.nodup_cons] at hnd
    rw [List.flatMap_cons, List.nodup_append]
    refine ⟨?_, ih hnd.2, ?_⟩
    · apply List.Nodup.map (fbCell_inj p.2)
      split_ifs
      · exact List.nodup_range size
      · exact List.nodup_reverse.2 (List.nodup_range size)
    · intro a ha hb
      obtain ⟨r, _, rfl⟩ := List.mem_map.1 ha
      obtain ⟨ic, hic, hmem⟩ := List.mem_flatMap.1 hb
      obtain ⟨r', _, heq⟩ := List.mem_map.1 hmem
      have hc : p.2 = ic.2 := by
        have hcol := congrArg Cell.col heq
        have hcol' : Int.ofNat p.2 = Int.ofNat ic.2 := hcol.symm
        exact Int.ofNat_inj.1 hcol'
      exact hnd.1 (hc ▸ List.mem_map_of_mem Prod.snd hic)

/-- Every cell of a fallback block is in bounds when the column entries are. -/
theorem fbBlocks_bounds (size : Nat) : ∀ ps : List (Nat × Nat),
    (∀ q ∈ ps, q.2 < size) →
    ∀ x ∈ ps.flatMap (fun ic =>
      (if ic.1 % 2 = 0 then List.range size else (List.range size).reverse).map
        (fun r => (⟨Int.ofNat r, Int.ofNat ic.2⟩ : Cell))),
      cellInBounds size x := by
  intro ps hcols x hx
  obtain ⟨ic, hic, hmem⟩ := List.mem_flatMap.1 hx
  obtain ⟨r, hr, rfl⟩ := List.mem_map.1 hmem
  have hrlt : r < size := by
    rcases (by split_ifs at hr <;> [exact Or.inl hr; exact Or.inr hr] :
        r ∈ List.range size ∨ r ∈ (List.range size).reverse) with h' | h'
    · exact List.mem_range.1 h'
    · exact List.mem_range.1 (List.mem_reverse.1 h')
  refine ⟨by simp, Int.ofNat_lt.2 hrlt, by simp, Int.ofNat_lt.2 (hcols ic hic)⟩

/-- The fallback sweep covers every cell of the grid exactly once. -/
theorem buildFallback_covers (g : Nat → Nat) (size k : Nat) :
    coversEachOnce size (buildFallback g size k) := by
  have hperm : (fyLoop g (List.range size) k (size - 1)).1.Perm (List.range size) :=
    fyLoop_perm g (size - 1) (List.range size) k
  have hlencols : (fyLoop g (List.range size) k (size - 1)).1.length = size :=
    hperm.length_eq.trans (List.length_range size)
  have hmemcols : ∀ c ∈ (fyLoop g (List.range size) k (size - 1)).1, c < size :=
    fun c hc => List.mem_range.1 (hperm.mem_iff.1 hc)
  have hsnd : ((fyLoop g (List.range size) k (size - 1)).1.enum.map Prod.snd)
      = (fyLoop g (List.range size) k (size - 1)).1 := List.enum_map_snd _
  apply coversEachOnce_of
  · rw [buildFallback]
    rw [fbBlocks_length size]
    rw [List.enum_length, hlencols]
  · rw [buildFallback]
    apply fbBlocks_nodup size
    rw [hsnd]
    exact hperm.nodup_iff.2 (List.nodup_range size)
  · rw [buildFallback]
    apply fbBlocks_bounds size
    intro q hq
    apply hmemcols
    rw [← hsnd]
    exact List.mem_map_of_mem Prod.snd hq

/-- `buildRandomHamiltonianPath` always returns a list containing every cell
of the grid exactly once (both the DFS branch and the fallback). -/
theorem buildPath_covers (g : Nat → Nat) (size : Nat) (hsz : 1 ≤ size) :
    coversEachOnce size (buildRandomHamiltonianPath g size) := by
  have hb : ∀ s0 ∈ (some (⟨Int.ofNat (floorMul (g 0) size),
      Int.ofNat (floorMul (g 1) size)⟩ : Cell) : Option Cell),
      cellInBounds size s0 := by
    intro s0 hs0
    have heq : (⟨Int.ofNat (floorMul (g 0) size),
        Int.ofNat (floorMul (g 1) size)⟩ : Cell) = s0 := by
      simpa using hs0
    subst heq
    exact ⟨by simp, Int.ofNat_lt.2 (floorMul_lt (g 0) size hsz), by simp,
      Int.ofNat_lt.2 (floorMul_lt (g 1) size hsz)⟩
  simp only [buildRandomHamiltonianPath]
  split
  next p k hal =>
    obtain ⟨h1, h2, _, h4⟩ := attemptsLoop_spec g size (size * size) hsz 12 2 _ hb p k hal
    exact coversEachOnce_of size p h1 h2 h4
  next k hal =>
    exact buildFallback_covers g size k

/-- Whenever the retry loop itself returns the path, consecutive cells are
4-adjacent. -/
theorem buildPath_dfs_adjacent (g : Nat → Nat) (size : Nat) (hsz : 1 ≤ size) :
    dfsBranchAdjacent g size := by
  intro p k h
  have hb : ∀ s0 ∈ (some (⟨Int.ofNat (floorMul (g 0) size),
      Int.ofNat (floorMul (g 1) size)⟩ : Cell) : Option Cell),
      cellInBounds size s0 := by
    intro s0 hs0
    have heq : (⟨Int.ofNat (floorMul (g 0) size),
        Int.ofNat (floorMul (g 1) size)⟩ : Cell) = s0 := by
      simpa using hs0
    subst heq
    exact ⟨by simp, Int.ofNat_lt.2 (floorMul_lt (g 0) size hsz), by simp,
      Int.ofNat_lt.2 (floorMul_lt (g 1) size hsz)⟩
  have hs := attemptsLoop_spec g size (size * size) hsz 12 2 _ hb p k h
  exact (pairwiseAdjacentB_iff p).2 hs.2.2.1

/-- C1 (amended): for every grid size (at least 2) and every RNG output
stream — hence every 32-bit seed — `buildRandomHamiltonianPath` returns a
list of exactly `N²` cells in which every cell of the grid appears exactly
once; and whenever the randomized DFS stage itself produces the result,
every pair of consecutive cells is 4-adjacent.  (The fallback sweep
guarantees only the exactly-once property: its shuffled column order can
place non-adjacent columns side by side, see the counterexample.) -/
theorem c1_hamiltonian_amended :
    ∀ (size : Nat) (g : Nat → Nat), 2 ≤ size →
      coversEachOnce size (buildRandomHamiltonianPath g size) ∧
      dfsBranchAdjacent g size := by
  intro size g h
  exact ⟨buildPath_covers g size (by omega), buildPath_dfs_adjacent g size (by omega)⟩

/-- Witness for C1's amended theorem at size 2 with the constant-zero
stream. -/
theorem c1_witness :
    coversEachOnce 2 (buildRandomHamiltonianPath (fun _ => 0) 2) ∧
    dfsBranchAdjacent (fun _ => 0) 2 :=
  c1_hamiltonian_amended 2 (fun _ => 0) (by decide)

/-- Counterexample for C1 as stated: under the stream `gBad` every one of
the 12 DFS attempts on the 3×3 grid starts at the minority-colour cell
(0,1), from which no Hamiltonian path exists, so the search exhausts its
retry budget and the fallback's shuffled column order `[0, 2, 1]` produces
a returned path with the non-adjacent consecutive pair (2,0) → (2,2). -/
theorem c1_counterexample :
    buildRandomHamiltonianPath gBad 3 =
      [⟨0, 0⟩, ⟨1, 0⟩, ⟨2, 0⟩, ⟨2, 2⟩, ⟨1, 2⟩, ⟨0, 2⟩, ⟨0, 1⟩, ⟨1, 1⟩, ⟨2, 1⟩] ∧
    pairwiseAdjacentB
      [⟨0, 0⟩, ⟨1, 0⟩, ⟨2, 0⟩, ⟨2, 2⟩, ⟨1, 2⟩, ⟨0, 2⟩, ⟨0, 1⟩, ⟨1, 1⟩, ⟨2, 1⟩]
      = false := by
  constructor
  · decide
  · decide


/-- The initial all-`null` matrix is well-formed. -/
theorem gridWF_replicate (size : Nat) :
    GridWF size (List.replicate size (List.replicate size (none : Option Nat))) := by
  constructor
  · simp
  · intro row hrow
    rw [List.eq_of_mem_replicate hrow]
    simp

theorem gridWF_gridSet (size : Nat) (grid : Grid) (c : Cell) (d : Nat)
    (h : GridWF size grid) (hb : cellInBounds size c) :
    GridWF size (gridSet grid c d) := by
  obtain ⟨hb1, hb2, hb3, hb4⟩ := hb
  have hrow : c.row.toNat < grid.length := by rw [h.1]; omega
  rw [gridSet, if_pos ⟨hb1, hb3⟩]
  constructor
  · rw [List.length_set]; exact h.1
  · intro row hrowmem
    rcases List.mem_or_eq_of_mem_set hrowmem with h' | h'
    · exact h.2 row h'
    · subst h'
      rw [List.length_set]
      have heq : grid.getD c.row.toNat [] = grid[c.row.toNat] := by
        rw [List.getD_eq_getElem?_getD, List.getElem?_eq_getElem hrow]
        rfl
      rw [heq]
      exact h.2 _ (grid.getElem_mem hrow)

theorem gridVal_replicate (size : Nat) (x : Cell) :
    gridVal (List.replicate size (List.replicate size (none : Option Nat))) x = none := by
  rw [gridVal]
  split_ifs with hc
  · simp only [List.getD_eq_getElem?_getD, List.getElem?_replicate]
    split_ifs <;> simp [List.getElem?_replicate] <;> split_ifs <;> simp
  · rfl

theorem gridVal_gridSet_self (size : Nat) (grid : Grid) (c : Cell) (d : Nat)
    (hWF : GridWF size grid) (hb : cellInBounds size c) :
    gridVal (gridSet grid c d) c = some d := by
  obtain ⟨hb1, hb2, hb3, hb4⟩ := hb
  have hrow : c.row.toNat < grid.length := by rw [hWF.1]; omega
  have hrlen : (grid.getD c.row.toNat []).length = size := by
    rw [List.getD_eq_getElem?_getD, List.getElem?_eq_getElem hrow]
    exact hWF.2 _ (grid.getElem_mem hrow)
  rw [gridSet, if_pos ⟨hb1, hb3⟩, gridVal, if_pos ⟨hb1, hb3⟩]
  simp only [List.getD_eq_getElem?_getD] at hrlen ⊢
  rw [List.getElem?_set_self hrow, Option.getD_some,
    List.getElem?_set_self (by rw [hrlen]; omega), Option.getD_some]

theorem gridVal_gridSet_other (grid : Grid) (c c' : Cell) (d : Nat)
    (hne : c' ≠ c) : gridVal (gridSet grid c d) c' = gridVal grid c' := by
  rw [gridSet]
  split_ifs with hc
  · rw [gridVal, gridVal]
    split_ifs with hc'
    · simp only [List.getD_eq_getElem?_getD]
      by_cases hrow : c'.row.toNat = c.row.toNat
      · by_cases hcl : c.row.toNat < grid.length
        · have hcol : c'.col.toNat ≠ c.col.toNat := by
            have hcne : c'.col ≠ c.col := by
              intro he
              apply hne
              have hre : c'.row = c.row := by omega
              cases c; cases c'
              simp_all
            omega
          rw [hrow, List.getElem?_set_self hcl, Option.getD_some,
            List.getElem?_set_ne (fun hh => hcol hh.symm)]
        · rw [List.set_eq_of_length_le (by omega)]
      · rw [List.getElem?_set_ne (fun hh => hrow hh.symm)]
    · rfl
  · rfl

/-- Stable insertion adds exactly one element. -/
theorem length_insSorted {α : Type} (key : α → Nat) (a : α) :
    ∀ l : List α, (insSorted key a l).length = l.length + 1 := by
  intro l
  induction l with
  | nil => rfl
  | cons y ys ih =>
    rw [insSorted]
    split_ifs
    · rfl
    · rw [List.length_cons, ih, List.length_cons]

/-- The stable sort preserves length. -/
theorem length_stableSortBy {α : Type} (key : α → Nat) :
    ∀ l : List α, (stableSortBy key l).length = l.length := by
  intro l
  induction l with
  | nil => rfl
  | cons y ys ih =>
    rw [stableSortBy, length_insSorted, ih, List.length_cons]

/-- A clamped jittered index never exceeds `total - 2`. -/
theorem clampIdx_le (total : Nat) (x : Int) : clampIdx total x ≤ total - 2 := by
  rw [clampIdx]
  have h1 : min (Int.ofNat (total - 2)) (max 0 x) ≤ Int.ofNat (total - 2) :=
    min_le_left _ _
  exact Int.toNat_le.2 (by exact_mod_cast h1)

/-- Every jittered index is at most `total - 2`. -/
theorem mem_jitteredRaw_le (total : Nat) (jit : Nat → Int) (base : List Nat)
    (x : Nat) (hx : x ∈ jitteredRaw total jit base) : x ≤ total - 2 := by
  rw [jitteredRaw] at hx
  obtain ⟨ib, _, rfl⟩ := List.mem_map.1 hx
  exact clampIdx_le total _

/-- The forward fixing pass preserves length. -/
theorem fixFwd_length (t : Nat) :
    ∀ (l : List Nat) (prev : Nat), (fixFwd t prev l).length = l.length := by
  intro l
  induction l with
  | nil => intro prev; rfl
  | cons x xs ih =>
    intro prev
    rw [fixFwd]
    simp only [List.length_cons, ih]

/-- The forward fixing pass caps every entry at `t` (the second `if` of the
loop body). -/
theorem fixFwd_le (t : Nat) :
    ∀ (l : List Nat) (prev x : Nat), x ∈ fixFwd t prev l → x ≤ t := by
  intro l
  induction l with
  | nil => intro prev x h; simp [fixFwd] at h
  | cons a as ih =>
    intro prev x h
    rw [fixFwd] at h
    rcases List.mem_cons.1 h with h' | h'
    · subst h'
      split_ifs <;> omega
    · exact ih _ x h'

/-- Lower bound after the forward pass: the `k`-th output is at least
`prev + 1 + k`, except where the cap `t` interferes. -/
theorem fixFwd_lb (t : Nat) :
    ∀ (l : List Nat) (prev k x : Nat), (fixFwd t prev l)[k]? = some x →
      min (prev + 1 + k) t ≤ x := by
  intro l
  induction l with
  | nil => intro prev k x h; simp [fixFwd] at h
  | cons a as ih =>
    intro prev k x h
    rw [fixFwd] at h
    cases k with
    | zero =>
      simp only [List.getElem?_cons_zero, Option.some.injEq] at h
      subst h
      split_ifs <;> omega
    | succ k =>
      simp only [List.getElem?_cons_succ] at h
      have := ih _ k x h
      split_ifs at this <;> omega

/-- The full forward pass (which skips index 0) preserves length. -/
theorem fwdPass_length (t : Nat) (l : List Nat) :
    (fwdPass t l).length = l.length := by
  cases l with
  | nil => rfl
  | cons h rest => rw [fwdPass, List.length_cons, fixFwd_length, List.length_cons]

/-- The full forward pass keeps every entry at most `t` when the input
entries are. -/
theorem fwdPass_le (t : Nat) (l : List Nat) (hub : ∀ x ∈ l, x ≤ t) :
    ∀ x ∈ fwdPass t l, x ≤ t := by
  cases l with
  | nil => intro x h; simp [fwdPass] at h
  | cons h rest =>
    intro x hx
    rw [fwdPass] at hx
    rcases List.mem_cons.1 hx with h' | h'
    · subst h'; exact hub _ (by simp)
    · exact fixFwd_le t rest h x h'

/-- Lower bound after the full forward pass: the `k`-th output is at least
`min k t`. -/
theorem fwdPass_lb (t : Nat) (l : List Nat) :
    ∀ (k x : Nat), (fwdPass t l)[k]? = some x → min k t ≤ x := by
  cases l with
  | nil => intro k x h; simp [fwdPass] at h
  | cons h rest =>
    intro k x hk
    rw [fwdPass] at hk
    cases k with
    | zero => simp
    | succ k =>
      simp only [List.getElem?_cons_succ] at hk
      have := fixFwd_lb t rest h k x hk
      omega

/-- The backward spreading pass: on a list of entries at most `t` whose
`k`-th entry is at least `off + k`, with `off + length ≤ t + 1`, it keeps
the length, the `≤ t` cap and the lower bounds, and its output is strictly
increasing. -/
theorem fixBwd_spec :
    ∀ (l : List Nat) (t off : Nat),
      (∀ x ∈ l, x ≤ t) →
      (∀ k x, l[k]? = some x → off + k ≤ x) →
      off + l.length ≤ t + 1 →
      (fixBwd l).length = l.length ∧
      (∀ x ∈ fixBwd l, x ≤ t) ∧
      (∀ k x, (fixBwd l)[k]? = some x → off + k ≤ x) ∧
      List.Chain' (fun a b => a < b) (fixBwd l) := by
  intro l
  induction l with
  | nil => intro t off _ _ _; exact ⟨rfl, by simp [fixBwd], by simp [fixBwd], by simp [fixBwd]⟩
  | cons x xs ih =>
    intro t off hub hlb hlen
    cases xs with
    | nil =>
      refine ⟨rfl, ?_, ?_, by simp [fixBwd]⟩
      · intro z hz
        rw [fixBwd] at hz
        rcases List.mem_cons.1 hz with h' | h'
        · subst h'; exact hub _ (by simp)
        · simp at h'
      · intro k z hk
        rw [fixBwd] at hk
        cases k with
        | zero =>
          simp only [List.getElem?_cons_zero, Option.some.injEq] at hk
          have := hlb 0 x (by simp)
          omega
        | succ k => simp at hk
    | cons y rest =>
      have hub' : ∀ z ∈ y :: rest, z ≤ t := fun z hz => hub z (List.mem_cons_of_mem _ hz)
      have hlb' : ∀ k z, (y :: rest)[k]? = some z → (off + 1) + k ≤ z := by
        intro k z hk
        have := hlb (k + 1) z (by simpa using hk)
        omega
      have hlen' : (off + 1) + (y :: rest).length ≤ t + 1 := by
        simp only [List.length_cons] at hlen ⊢
        omega
      obtain ⟨hL, hU, hB, hC⟩ := ih t (off + 1) hub' hlb' hlen'
      rw [fixBwd]
      cases hfe : fixBwd (y :: rest) with
      | nil =>
        exfalso
        rw [hfe] at hL
        simp at hL
      | cons y' r =>
        rw [hfe] at hL hU hB hC
        have hy' : off + 1 ≤ y' := by simpa using hB 0 y' (by simp)
        have hx0t : x ≤ t := hub x (by simp)
        have hx0off : off ≤ x := by simpa using hlb 0 x (by simp)
        refine ⟨?_, ?_, ?_, ?_⟩
        · simp only [List.length_cons] at hL ⊢
          omega
        · intro z hz
          rcases List.mem_cons.1 hz with h' | h'
          · subst h'
            have hyt : y' ≤ t := hU y' (by simp)
            split_ifs <;> omega
          · exact hU z h'
        · intro k z hk
          cases k with
          | zero =>
            simp only [List.getElem?_cons_zero, Option.some.injEq] at hk
            subst hk
            split_ifs <;> omega
          | succ k =>
            simp only [List.getElem?_cons_succ] at hk
            have := hB k z hk
            omega
        · rw [List.chain'_cons]
          refine ⟨?_, hC⟩
          split_ifs <;> omega

/-- Entries of a strictly increasing chain are strictly monotone in the
index. -/
theorem chain_lt_getElem (l : List Nat)
    (hC : List.Chain' (fun a b => a < b) l) :
    ∀ (i j : Nat) (hi : i < l.length) (hj : j < l.length), i < j →
      l[i] < l[j] := by
  have hp := List.chain'_iff_pairwise.1 hC
  intro i j hi hj hij
  exact List.pairwise_iff_getElem.1 hp i j hi hj hij

/-- The digit-placement fold over in-bounds pairwise-distinct target cells:
the resulting grid is well-formed, carries digit `i + 1` exactly on the
`i`-th target cell, and is empty elsewhere. -/
theorem place_fold (size : Nat) (cf : Nat → Cell) (m : Nat)
    (hbnd : ∀ i, i < m → cellInBounds size (cf i))
    (hinj : ∀ i j, i < m → j < m → cf i = cf j → i = j) :
    GridWF size ((List.range m).foldl
        (fun acc i => gridSet acc (cf i) (i + 1))
        (List.replicate size (List.replicate size none))) ∧
    (∀ i, i < m → gridVal ((List.range m).foldl
        (fun acc i => gridSet acc (cf i) (i + 1))
        (List.replicate size (List.replicate size none))) (cf i) = some (i + 1)) ∧
    (∀ x : Cell, (∀ i, i < m → x ≠ cf i) → gridVal ((List.range m).foldl
        (fun acc i => gridSet acc (cf i) (i + 1))
        (List.replicate size (List.replicate size none))) x = none) := by
  induction m with
  | zero =>
    refine ⟨gridWF_replicate size, ?_, ?_⟩
    · intro i hi; omega
    · intro x _
      simp only [List.range_zero, List.foldl_nil]
      exact gridVal_replicate size x
  | succ m ih =>
    obtain ⟨ihWF, ihSome, ihNone⟩ := ih
      (fun i hi => hbnd i (by omega))
      (fun i j hi hj => hinj i j (by omega) (by omega))
    rw [List.range_succ, List.foldl_append, List.foldl_cons, List.foldl_nil]
    refine ⟨?_, ?_, ?_⟩
    · exact gridWF_gridSet size _ (cf m) (m + 1) ihWF (hbnd m (by omega))
    · intro i hi
      by_cases him : i = m
      · subst him
        exact gridVal_gridSet_self size _ (cf i) (i + 1) ihWF (hbnd i (by omega))
      · have hlt : i < m := by omega
        have hne : cf i ≠ cf m := by
          intro h
          exact him (hinj i m (by omega) (by omega) h)
        rw [gridVal_gridSet_other _ (cf m) (cf i) (m + 1) hne]
        exact ihSome i hlt
    · intro x hx
      rw [gridVal_gridSet_other _ (cf m) x (m + 1) (hx m (by omega))]
      exact ihNone x (fun i hi => hx i (by omega))

/-- Every placement index is a valid path position. -/
theorem placeIdx_lt (total maxD : Nat) (idxs : List Nat)
    (h1 : 1 ≤ total) (hle : maxD ≤ total) (hilen : idxs.length = maxD - 1)
    (hiub : ∀ x ∈ idxs, x ≤ total - 2) :
    ∀ i, i < maxD → placeIdx total maxD idxs i < total := by
  intro i hi
  rw [placeIdx]
  split_ifs with he
  · omega
  · have hi' : i < idxs.length := by omega
    rw [show i + 1 - 1 = i from rfl, List.getD_eq_getElem idxs 0 hi']
    have := hiub idxs[i] (idxs.getElem_mem hi')
    omega

/-- Placement indices are strictly increasing in the digit when the
jittered indices are. -/
theorem placeIdx_mono (total maxD : Nat) (idxs : List Nat)
    (hle : maxD ≤ total) (hilen : idxs.length = maxD - 1)
    (hiub : ∀ x ∈ idxs, x ≤ total - 2)
    (hpw : ∀ (i j : Nat) (hi : i < idxs.length) (hj : j < idxs.length),
      i < j → idxs[i] < idxs[j]) :
    ∀ i j, i < j → j < maxD →
      placeIdx total maxD idxs i < placeIdx total maxD idxs j := by
  intro i j hij hj
  have hine : i + 1 ≠ maxD := by omega
  have hi' : i < idxs.length := by omega
  rw [placeIdx, placeIdx, if_neg hine,
    show i + 1 - 1 = i from rfl, show j + 1 - 1 = j from rfl,
    List.getD_eq_getElem idxs 0 hi']
  split_ifs with hje
  · have h2 : 2 ≤ maxD := by omega
    have := hiub idxs[i] (idxs.getElem_mem hi')
    omega
  · have hj' : j < idxs.length := by omega
    rw [List.getD_eq_getElem idxs 0 hj']
    exact hpw i j hi' hj' hij

/-- Full characterisation of the placement loop on a duplicate-free
in-bounds path with strictly increasing valid jittered indices: digit
values are exactly `1..maxD`, each digit occupies exactly one cell, digits
`d` and `d+1` sit at increasing path positions, and the maximum digit sits
on the path's last cell. -/
theorem placeDigits_spec (size : Nat) (path : List Cell) (idxs : List Nat) (maxD : Nat)
    (hnd : path.Nodup) (hbnd : ∀ x ∈ path, cellInBounds size x)
    (hmax1 : 1 ≤ maxD) (hmaxle : maxD ≤ path.length)
    (hilen : idxs.length = maxD - 1)
    (hiub : ∀ x ∈ idxs, x ≤ path.length - 2)
    (hpw : ∀ (i j : Nat) (hi : i < idxs.length) (hj : j < idxs.length),
      i < j → idxs[i] < idxs[j]) :
    (∀ (x : Cell) (v : Nat),
      gridVal (placeDigits path path.length maxD idxs
        (List.replicate size (List.replicate size none))) x = some v →
      1 ≤ v ∧ v ≤ maxD) ∧
    (∀ d : Nat, 1 ≤ d → d ≤ maxD →
      ∃! x : Cell, gridVal (placeDigits path path.length maxD idxs
        (List.replicate size (List.replicate size none))) x = some d) ∧
    (∀ d : Nat, 1 ≤ d → d + 1 ≤ maxD →
      ∃ i j : Nat, i < j ∧ j < path.length ∧
        gridVal (placeDigits path path.length maxD idxs
          (List.replicate size (List.replicate size none)))
          (path.getD i ⟨0, 0⟩) = some d ∧
        gridVal (placeDigits path path.length maxD idxs
          (List.replicate size (List.replicate size none)))
          (path.getD j ⟨0, 0⟩) = some (d + 1)) ∧
    gridVal (placeDigits path path.length maxD idxs
        (List.replicate size (List.replicate size none)))
      (path.getD (path.length - 1) ⟨0, 0⟩) = some maxD := by
  have h1 : 1 ≤ path.length := le_trans hmax1 hmaxle
  have hJlt := placeIdx_lt path.length maxD idxs h1 hmaxle hilen hiub
  have hJmono := placeIdx_mono path.length maxD idxs hmaxle hilen hiub hpw
  have hcf_bnd : ∀ i, i < maxD → cellInBounds size (placeCell path maxD idxs i) := by
    intro i hi
    rw [placeCell, List.getD_eq_getElem path ⟨0, 0⟩ (hJlt i hi)]
    exact hbnd _ (path.getElem_mem _)
  have hJne : ∀ i j, i < maxD → j < maxD → i ≠ j →
      placeIdx path.length maxD idxs i ≠ placeIdx path.length maxD idxs j := by
    intro i j hi hj hne
    rcases Nat.lt_or_ge i j with h' | h'
    · exact Nat.ne_of_lt (hJmono i j h' hj)
    · have h'' : j < i := by omega
      exact (Nat.ne_of_lt (hJmono j i h'' hi)).symm
  have hcf_inj : ∀ i j, i < maxD → j < maxD →
      placeCell path maxD idxs i = placeCell path maxD idxs j → i = j := by
    intro i j hi hj hcc
    by_contra hne
    rw [placeCell, placeCell, List.getD_eq_getElem path ⟨0, 0⟩ (hJlt i hi),
      List.getD_eq_getElem path ⟨0, 0⟩ (hJlt j hj)] at hcc
    exact hJne i j hi hj hne ((hnd.getElem_inj_iff).1 hcc)
  obtain ⟨hWF, hSome, hNone⟩ := place_fold size (placeCell path maxD idxs) maxD
    hcf_bnd hcf_inj
  have hout : placeDigits path path.length maxD idxs
      (List.replicate size (List.replicate size none)) =
      (List.range maxD).foldl
        (fun acc i => gridSet acc (placeCell path maxD idxs i) (i + 1))
        (List.replicate size (List.replicate size none)) := rfl
  rw [hout]
  refine ⟨?_, ?_, ?_, ?_⟩
  · intro x v hx
    by_cases hhit : ∀ i, i < maxD → x ≠ placeCell path maxD idxs i
    · rw [hNone x hhit] at hx
      exact absurd hx (by simp)
    · push_neg at hhit
      obtain ⟨i, hi, rfl⟩ := hhit
      rw [hSome i hi] at hx
      have : v = i + 1 := by injection hx; omega
      omega
  · intro d hd1 hdm
    refine ⟨placeCell path maxD idxs (d - 1), ?_, ?_⟩
    · have hv := hSome (d - 1) (by omega)
      have hd' : d - 1 + 1 = d := by omega
      rw [hd'] at hv
      exact hv
    · intro y hy
      have hy' : gridVal ((List.range maxD).foldl
          (fun acc i => gridSet acc (placeCell path maxD idxs i) (i + 1))
          (List.replicate size (List.replicate size none))) y = some d := hy
      by_cases hhit : ∀ i, i < maxD → y ≠ placeCell path maxD idxs i
      · rw [hNone y hhit] at hy'
        exact absurd hy' (by simp)
      · push_neg at hhit
        obtain ⟨i, hi, rfl⟩ := hhit
        rw [hSome i hi] at hy'
        have hdi : d = i + 1 := by
          have := Option.some.inj hy'
          omega
        congr 1
        omega
  · intro d hd1 hdm
    refine ⟨placeIdx path.length maxD idxs (d - 1),
      placeIdx path.length maxD idxs d, ?_, hJlt d (by omega), ?_, ?_⟩
    · exact hJmono (d - 1) d (by omega) (by omega)
    · have := hSome (d - 1) (by omega)
      rw [placeCell] at this
      rw [this]
      congr 1
      omega
    · have := hSome d (by omega)
      rw [placeCell] at this
      rw [this]
  · have := hSome (maxD - 1) (by omega)
    rw [placeCell] at this
    have hidx : placeIdx path.length maxD idxs (maxD - 1) = path.length - 1 := by
      rw [placeIdx, if_pos (by omega)]
    rw [hidx] at this
    rw [this]
    congr 1
    omega

/-- The jittered-index pipeline of `generateGrid` (clamp, sort, forward fix,
backward spread) yields `min 9 total - 1` strictly increasing indices, all
at most `total - 2`. -/
theorem jitterIdxs_spec (total : Nat) (jit : Nat → Int) (h1 : 1 ≤ total) :
    (fixBwd (fwdPass (total - 2) (stableSortBy (fun x => x)
      (jitteredRaw total jit (baseIndices total (min 9 total - 1)))))).length
        = min 9 total - 1 ∧
    (∀ x ∈ fixBwd (fwdPass (total - 2) (stableSortBy (fun x => x)
      (jitteredRaw total jit (baseIndices total (min 9 total - 1))))),
      x ≤ total - 2) ∧
    ∀ (i j : Nat)
      (hi : i < (fixBwd (fwdPass (total - 2) (stableSortBy (fun x => x)
        (jitteredRaw total jit (baseIndices total (min 9 total - 1)))))).length)
      (hj : j < (fixBwd (fwdPass (total - 2) (stableSortBy (fun x => x)
        (jitteredRaw total jit (baseIndices total (min 9 total - 1)))))).length),
      i < j →
      (fixBwd (fwdPass (total - 2) (stableSortBy (fun x => x)
        (jitteredRaw total jit (baseIndices total (min 9 total - 1))))))[i] <
      (fixBwd (fwdPass (total - 2) (stableSortBy (fun x => x)
        (jitteredRaw total jit (baseIndices total (min 9 total - 1))))))[j] := by
  have hmin : min 9 total ≤ total := min_le_right _ _
  have hL0len : (jitteredRaw total jit (baseIndices total (min 9 total - 1))).length
      = min 9 total - 1 := by
    rw [jitteredRaw, List.length_map, List.enum_length, baseIndices, List.length_map,
      List.length_range]
  have hslen : (stableSortBy (fun x => x)
      (jitteredRaw total jit (baseIndices total (min 9 total - 1)))).length
      = min 9 total - 1 := by
    rw [length_stableSortBy, hL0len]
  have hsmem : ∀ x ∈ stableSortBy (fun x => x)
      (jitteredRaw total jit (baseIndices total (min 9 total - 1))), x ≤ total - 2 :=
    fun x hx => mem_jitteredRaw_le total jit _ x (mem_stableSortBy _ x _ hx)
  have hFlen : (fwdPass (total - 2) (stableSortBy (fun x => x)
      (jitteredRaw total jit (baseIndices total (min 9 total - 1))))).length
      = min 9 total - 1 := by
    rw [fwdPass_length, hslen]
  have hFub := fwdPass_le (total - 2) _ hsmem
  have hFlb : ∀ k x, (fwdPass (total - 2) (stableSortBy (fun x => x)
      (jitteredRaw total jit (baseIndices total (min 9 total - 1)))))[k]? = some x →
      0 + k ≤ x := by
    intro k x hk
    have hkl : k < min 9 total - 1 := by
      have := (List.getElem?_eq_some_iff.1 hk).1
      rw [hFlen] at this
      exact this
    have := fwdPass_lb (total - 2) _ k x hk
    omega
  have hlen0 : 0 + (fwdPass (total - 2) (stableSortBy (fun x => x)
      (jitteredRaw total jit (baseIndices total (min 9 total - 1))))).length
      ≤ (total - 2) + 1 := by
    rw [hFlen]
    omega
  obtain ⟨hBlen, hBub, _, hBchain⟩ :=
    fixBwd_spec _ (total - 2) 0 hFub hFlb hlen0
  refine ⟨by rw [hBlen, hFlen], hBub, ?_⟩
  intro i j hi hj hij
  exact chain_lt_getElem _ hBchain i j hi hj hij

/-- On a non-degenerate grid, `generateGrid` is exactly the placement loop
applied to the built path and the jittered indices. -/
theorem generateGrid_eq (size : Nat) (g : Nat → Nat) (jit : Nat → Int)
    (h : ¬ min 9 (buildRandomHamiltonianPath g size).length = 0) :
    generateGrid size g jit =
      placeDigits (buildRandomHamiltonianPath g size)
        (buildRandomHamiltonianPath g size).length
        (min 9 (buildRandomHamiltonianPath g size).length)
        (fixBwd (fwdPass ((buildRandomHamiltonianPath g size).length - 2)
          (stableSortBy (fun x => x)
            (jitteredRaw (buildRandomHamiltonianPath g size).length jit
              (baseIndices (buildRandomHamiltonianPath g size).length
                (min 9 (buildRandomHamiltonianPath g size).length - 1))))))
        (List.replicate size (List.replicate size none)) := by
  simp only [generateGrid]
  rw [if_neg h]

/-- The fallback sweep has full length and is a duplicate-free in-bounds
list. -/
theorem buildFallback_props (g : Nat → Nat) (size k : Nat) :
    (buildFallback g size k).length = size * size ∧
    (buildFallback g size k).Nodup ∧
    ∀ x ∈ buildFallback g size k, cellInBounds size x := by
  have hperm : (fyLoop g (List.range size) k (size - 1)).1.Perm (List.range size) :=
    fyLoop_perm g (size - 1) (List.range size) k
  have hlencols : (fyLoop g (List.range size) k (size - 1)).1.length = size :=
    hperm.length_eq.trans (List.length_range size)
  have hmemcols : ∀ c ∈ (fyLoop g (List.range size) k (size - 1)).1, c < size :=
    fun c hc => List.mem_range.1 (hperm.mem_iff.1 hc)
  have hsnd : ((fyLoop g (List.range size) k (size - 1)).1.enum.map Prod.snd)
      = (fyLoop g (List.range size) k (size - 1)).1 := List.enum_map_snd _
  refine ⟨?_, ?_, ?_⟩
  · rw [buildFallback, fbBlocks_length size, List.enum_length, hlencols]
  · rw [buildFallback]
    apply fbBlocks_nodup size
    rw [hsnd]
    exact hperm.nodup_iff.2 (List.nodup_range size)
  · rw [buildFallback]
    apply fbBlocks_bounds size
    intro q hq
    apply hmemcols
    rw [← hsnd]
    exact List.mem_map_of_mem Prod.snd hq

/-- The built path (either branch) has full length and is a duplicate-free
in-bounds list. -/
theorem buildPath_props (g : Nat → Nat) (size : Nat) (hsz : 1 ≤ size) :
    (buildRandomHamiltonianPath g size).length = size * size ∧
    (buildRandomHamiltonianPath g size).Nodup ∧
    ∀ x ∈ buildRandomHamiltonianPath g size, cellInBounds size x := by
  have hb : ∀ s0 ∈ (some (⟨Int.ofNat (floorMul (g 0) size),
      Int.ofNat (floorMul (g 1) size)⟩ : Cell) : Option Cell),
      cellInBounds size s0 := by
    intro s0 hs0
    have heq : (⟨Int.ofNat (floorMul (g 0) size),
        Int.ofNat (floorMul (g 1) size)⟩ : Cell) = s0 := by
      simpa using hs0
    subst heq
    exact ⟨by simp, Int.ofNat_lt.2 (floorMul_lt (g 0) size hsz), by simp,
      Int.ofNat_lt.2 (floorMul_lt (g 1) size hsz)⟩
  simp only [buildRandomHamiltonianPath]
  split
  next p k hal =>
    obtain ⟨h1, h2, _, h4⟩ := attemptsLoop_spec g size (size * size) hsz 12 2 _ hb p k hal
    exact ⟨h1, h2, h4⟩
  next k hal =>
    exact buildFallback_props g size k

/-- Assembled digit-placement properties of `generateGrid` given the path
properties. -/
theorem generateGrid_places (size : Nat) (g : Nat → Nat) (jit : Nat → Int)
    (hsz : 1 ≤ size)
    (hplen : (buildRandomHamiltonianPath g size).length = size * size)
    (hnd : (buildRandomHamiltonianPath g size).Nodup)
    (hbnd : ∀ x ∈ buildRandomHamiltonianPath g size, cellInBounds size x) :
    (∀ (x : Cell) (v : Nat), gridVal (generateGrid size g jit) x = some v →
        1 ≤ v ∧ v ≤ min 9 (size * size)) ∧
    (∀ d : Nat, 1 ≤ d → d ≤ min 9 (size * size) →
        ∃! x : Cell, gridVal (generateGrid size g jit) x = some d) ∧
    (∀ d : Nat, 1 ≤ d → d + 1 ≤ min 9 (size * size) →
        ∃ i j : Nat, i < j ∧ j < size * size ∧
          gridVal (generateGrid size g jit)
            ((buildRandomHamiltonianPath g size).getD i ⟨0, 0⟩) = some d ∧
          gridVal (generateGrid size g jit)
            ((buildRandomHamiltonianPath g size).getD j ⟨0, 0⟩) = some (d + 1)) ∧
    gridVal (generateGrid size g jit)
        ((buildRandomHamiltonianPath g size).getD (size * size - 1) ⟨0, 0⟩)
      = some (min 9 (size * size)) := by
  have h1 : 1 ≤ (buildRandomHamiltonianPath g size).length := by
    rw [hplen]
    exact Nat.mul_pos hsz hsz
  have hmax1 : 1 ≤ min 9 (buildRandomHamiltonianPath g size).length :=
    le_min (by omega) h1
  have hne : ¬ min 9 (buildRandomHamiltonianPath g size).length = 0 := by omega
  obtain ⟨hilen, hiub, hpw⟩ :=
    jitterIdxs_spec (buildRandomHamiltonianPath g size).length jit h1
  obtain ⟨hA, hB, hC, hD⟩ := placeDigits_spec size (buildRandomHamiltonianPath g size)
    (fixBwd (fwdPass ((buildRandomHamiltonianPath g size).length - 2)
      (stableSortBy (fun x => x)
        (jitteredRaw (buildRandomHamiltonianPath g size).length jit
          (baseIndices (buildRandomHamiltonianPath g size).length
            (min 9 (buildRandomHamiltonianPath g size).length - 1))))))
    (min 9 (buildRandomHamiltonianPath g size).length)
    hnd hbnd hmax1 (min_le_right _ _) hilen hiub hpw
  rw [← hplen, generateGrid_eq size g jit hne]
  exact ⟨hA, hB, hC, hD⟩

/-- C4: for every grid size (at least 1), every RNG output stream — hence
every seed — and every jitter outcome, the grid returned by `generateGrid`
carries exactly the digits `1..K` for `K = min 9 N²` (any digit read from
the grid lies in `1..K`, and each digit of `1..K` occupies exactly one
cell), the positions of consecutive digits along the generating path are
strictly increasing, and digit `K` sits on the path's final cell. -/
theorem c4_generateGrid_digits (size : Nat) (g : Nat → Nat) (jit : Nat → Int)
    (hsz : 1 ≤ size) :
    (∀ (x : Cell) (v : Nat), gridVal (generateGrid size g jit) x = some v →
        1 ≤ v ∧ v ≤ min 9 (size * size)) ∧
    (∀ d : Nat, 1 ≤ d → d ≤ min 9 (size * size) →
        ∃! x : Cell, gridVal (generateGrid size g jit) x = some d) ∧
    (∀ d : Nat, 1 ≤ d → d + 1 ≤ min 9 (size * size) →
        ∃ i j : Nat, i < j ∧ j < size * size ∧
          gridVal (generateGrid size g jit)
            ((buildRandomHamiltonianPath g size).getD i ⟨0, 0⟩) = some d ∧
          gridVal (generateGrid size g jit)
            ((buildRandomHamiltonianPath g size).getD j ⟨0, 0⟩) = some (d + 1)) ∧
    gridVal (generateGrid size g jit)
        ((buildRandomHamiltonianPath g size).getD (size * size - 1) ⟨0, 0⟩)
      = some (min 9 (size * size)) := by
  obtain ⟨hplen, hnd, hbnd⟩ := buildPath_props g size hsz
  exact generateGrid_places size g jit hsz hplen hnd hbnd

/-- Witness for C4 at size 2 with the constant-zero stream and zero
jitter. -/
theorem c4_witness :
    (∀ (x : Cell) (v : Nat),
        gridVal (generateGrid 2 (fun _ => 0) (fun _ => 0)) x = some v →
        1 ≤ v ∧ v ≤ min 9 (2 * 2)) ∧
    (∀ d : Nat, 1 ≤ d → d ≤ min 9 (2 * 2) →
        ∃! x : Cell, gridVal (generateGrid 2 (fun _ => 0) (fun _ => 0)) x = some d) ∧
    (∀ d : Nat, 1 ≤ d → d + 1 ≤ min 9 (2 * 2) →
        ∃ i j : Nat, i < j ∧ j < 2 * 2 ∧
          gridVal (generateGrid 2 (fun _ => 0) (fun _ => 0))
            ((buildRandomHamiltonianPath (fun _ => 0) 2).getD i ⟨0, 0⟩) = some d ∧
          gridVal (generateGrid 2 (fun _ => 0) (fun _ => 0))
            ((buildRandomHamiltonianPath (fun _ => 0) 2).getD j ⟨0, 0⟩) = some (d + 1)) ∧
    gridVal (generateGrid 2 (fun _ => 0) (fun _ => 0))
        ((buildRandomHamiltonianPath (fun _ => 0) 2).getD (2 * 2 - 1) ⟨0, 0⟩)
      = some (min 9 (2 * 2)) :=
  c4_generateGrid_digits 2 (fun _ => 0) (fun _ => 0) (by decide)
